import Mathlib

/-!
Verification of the drone-routing core (geometry kernel, navigation graph
`transfer`, JSON graph construction, and the exact Branch & Bound solver).

The Python source is shallowly embedded: floating-point coordinates, costs and
battery levels are modelled as exact rationals (ℚ), Python `dict`s as
association lists or explicitly updated functions, and the `heapq` priority
queue as a list popped at its minimum element.  Node identifiers (Python
strings, compared lexicographically inside the priority tuples) are modelled
as naturals carrying the same total order.
-/

namespace DroneRouting

/-! ## Geometry kernel (src/common/geometry.py) -/

/-- The EPSILON constant of `geometry.py` (`1e-9`). -/
def EPS : ℚ := 1 / 1000000000

/-- A 2-D point.  `pid` models Python object identity: the source class `Point`
defines no `__eq__`, so the `!=` comparisons inside `segments_intersect`
compare object identity, which we model by the `pid` field.  All geometric
computations use only the coordinates. -/
structure Point where
  pid : ℕ
  x : ℚ
  y : ℚ
deriving DecidableEq, Repr

/-- A directed segment between two points (`geometry.Segment`). -/
structure Segment where
  a : Point
  b : Point
deriving DecidableEq, Repr

/-- Cross-product orientation test (`geometry._turn`). -/
def turn (a b c : Point) : ℚ :=
  ((b.x - a.x) * (c.y - a.y)) - ((b.y - a.y) * (c.x - a.x))

/-- Bounding-box membership check (`geometry._on_segment`). -/
def onSegment (a b c : Point) : Bool :=
  decide (min a.x b.x - EPS ≤ c.x) && decide (c.x ≤ max a.x b.x + EPS) &&
    decide (min a.y b.y - EPS ≤ c.y) && decide (c.y ≤ max a.y b.y + EPS)

/-- Python `p != q` on `Point` objects (default identity comparison). -/
def pointNe (p q : Point) : Bool :=
  decide (p.pid ≠ q.pid)

/-- A polygon is its ordered vertex list; the `Polygon.__init__` length check
is modelled separately by `mkPolygon`. -/
abbrev Poly := List Point

/-- Edge list of a polygon: consecutive vertex pairs, wrapping around
(`Polygon.edges`). -/
def polyEdges (vs : Poly) : List Segment :=
  List.zipWith Segment.mk vs (vs.rotate 1)

/-- Axis-aligned bounding box (minX, minY, maxX, maxY) of a vertex list
(`Polygon._bound_box`).  Source polygons always have ≥ 3 vertices; the value
for `[]` is irrelevant. -/
def boundBox (vs : Poly) : ℚ × ℚ × ℚ × ℚ :=
  match vs with
  | [] => (0, 0, 0, 0)
  | v :: rest =>
      (rest.foldl (fun m p => min m p.x) v.x,
       rest.foldl (fun m p => min m p.y) v.y,
       rest.foldl (fun m p => max m p.x) v.x,
       rest.foldl (fun m p => max m p.y) v.y)

/-- The boundary test used twice inside `point_in_polygon`: the point lies
(within EPS) on the given polygon edge. -/
def onBoundary (vs : Poly) (a : Point) : Bool :=
  (polyEdges vs).any fun e => decide (|turn e.a e.b a| ≤ EPS) && onSegment e.a e.b a

/-- The even-odd ray-casting loop of `point_in_polygon`. -/
def rayCast (vs : Poly) (a : Point) : Bool :=
  (vs.zip (vs.rotate 1)).foldl
    (fun inside pq =>
      let pa := pq.1
      let pb := pq.2
      if (decide (pa.y > a.y)) ≠ (decide (pb.y > a.y)) then
        let ix := pa.x + (a.y - pa.y) * (pb.x - pa.x) / (pb.y - pa.y)
        if ix > a.x then !inside else inside
      else inside)
    false

/-- `geometry.point_in_polygon`. -/
def pointInPolygon (a : Point) (vs : Poly) (includeBoundary : Bool) : Bool :=
  let bb := boundBox vs
  if a.x < bb.1 - EPS ∨ a.x > bb.2.2.1 + EPS ∨ a.y < bb.2.1 - EPS ∨ a.y > bb.2.2.2 + EPS then
    false
  else if includeBoundary && onBoundary vs a then true
  else if !includeBoundary && onBoundary vs a then false
  else rayCast vs a

/-- `geometry.segments_intersect`.  The four collinear cases mirror the four
early returns of the source; each returns
`include_endpoints or (touching point is not an endpoint of the other
segment)`, where `!=` is Python object identity (`pointNe`). -/
def segmentsIntersect (s1 s2 : Segment) (includeEndpoints : Bool) : Bool :=
  let pa := s1.a
  let pb := s1.b
  let pc := s2.a
  let pd := s2.b
  let tabc := turn pa pb pc
  let tabd := turn pa pb pd
  let tcda := turn pc pd pa
  let tcdb := turn pc pd pb
  if ((tabc > EPS ∧ tabd < -EPS) ∨ (tabc < -EPS ∧ tabd > EPS)) ∧
      ((tcda > EPS ∧ tcdb < -EPS) ∨ (tcda < -EPS ∧ tcdb > EPS)) then true
  else if |tabc| ≤ EPS ∧ onSegment pa pb pc = true then
    includeEndpoints || (pointNe pc pa && pointNe pc pb)
  else if |tabd| ≤ EPS ∧ onSegment pa pb pd = true then
    includeEndpoints || (pointNe pd pa && pointNe pd pb)
  else if |tcda| ≤ EPS ∧ onSegment pc pd pa = true then
    includeEndpoints || (pointNe pa pc && pointNe pa pd)
  else if |tcdb| ≤ EPS ∧ onSegment pc pd pb = true then
    includeEndpoints || (pointNe pb pc && pointNe pb pd)
  else false

/-- `geometry._bbox_intersect`. -/
def bboxIntersect (b1 b2 : ℚ × ℚ × ℚ × ℚ) : Bool :=
  !(decide (b1.2.2.1 < b2.1 - EPS) || decide (b2.2.2.1 < b1.1 - EPS) ||
    decide (b1.2.2.2 < b2.2.1 - EPS) || decide (b2.2.2.2 < b1.2.1 - EPS))

/-- Bounding box of a segment, as computed inside
`segment_intersects_polygon`. -/
def segBox (s : Segment) : ℚ × ℚ × ℚ × ℚ :=
  (min s.a.x s.b.x, min s.a.y s.b.y, max s.a.x s.b.x, max s.a.y s.b.y)

/-- `geometry.segment_intersects_polygon`. -/
def segmentIntersectsPolygon (s : Segment) (vs : Poly) (includeBoundary : Bool) : Bool :=
  if !(bboxIntersect (segBox s) (boundBox vs)) then false
  else (polyEdges vs).any fun e => segmentsIntersect s e includeBoundary

/-- The counting loop of `segment_crosses_polygon`: walks the edge list,
incrementing a counter on each boundary-inclusive intersection and returning
true as soon as the counter reaches 2. -/
def crossLoop (s : Segment) : List Segment → ℕ → Bool
  | [], _ => false
  | e :: es, count =>
      if segmentsIntersect s e true then
        if 2 ≤ count + 1 then true else crossLoop s es (count + 1)
      else crossLoop s es count

/-- `geometry.segment_crosses_polygon`. -/
def segmentCrossesPolygon (s : Segment) (vs : Poly) : Bool :=
  let aInside := pointInPolygon s.a vs false
  let bInside := pointInPolygon s.b vs false
  if aInside ≠ bInside then true
  else crossLoop s (polyEdges vs) 0

/-! ## Navigation graph and `transfer` (src/common/graph.py)

Node identifiers (Python strings) are modelled as naturals; the priority
queue of `heapq` compares tuples `(recharges, distance, risk, node, battery)`
lexicographically, so the model orders states by the corresponding
lexicographic order, with ℕ standing in for the lexicographic order on
strings.  The heap itself is modelled as a list from which the minimum
element is popped. -/

/-- A state of the `transfer` search: the tuple
`(recharges_used, distance_acc, risk_acc, current_node, battery_remaining)`
pushed on the priority queue. -/
structure TState where
  rech : ℕ
  dist : ℚ
  risk : ℚ
  node : ℕ
  batt : ℚ
deriving DecidableEq, Repr

/-- Lexicographic comparison of queue states, mirroring Python tuple
comparison on `(recharges, distance, risk, node, battery)`. -/
def stateLE (s t : TState) : Bool :=
  if s.rech ≠ t.rech then decide (s.rech < t.rech)
  else if s.dist ≠ t.dist then decide (s.dist < t.dist)
  else if s.risk ≠ t.risk then decide (s.risk < t.risk)
  else if s.node ≠ t.node then decide (s.node < t.node)
  else decide (s.batt ≤ t.batt)

/-- Minimum of a head element and a list under `stateLE`. -/
def listMin : TState → List TState → TState
  | m, [] => m
  | m, x :: xs => listMin (if stateLE m x then m else x) xs

/-- Pop the minimal element of the queue (the value `heapq.heappop`
returns); the remainder is the queue with one occurrence of that value
removed. -/
def popMin (q : List TState) : Option (TState × List TState) :=
  match q with
  | [] => none
  | x :: xs =>
      let m := listMin x xs
      some (m, (x :: xs).erase m)

/-- The navigation graph (`graph.Graph`).  `edges` is the adjacency
dictionary `id -> id -> (distance, risk, battery_cost)`, modelled as an
association list whose inner lists carry the dictionary iteration order. -/
structure Graph where
  maxBattery : ℚ
  nodes : List (ℕ × Point)
  clients : List ℕ
  recharges : List ℕ
  hub : ℕ
  forbiddenZones : List Poly
  riskZones : List (Poly × ℚ)
  edges : List (ℕ × List (ℕ × ℚ × ℚ × ℚ))

/-- Lookup in an association list (Python `dict.get`). -/
def assocGet {α : Type} : List (ℕ × α) → ℕ → Option α
  | [], _ => none
  | (k2, v) :: rest, k => if k = k2 then some v else assocGet rest k

/-- `self.edges.get(current_node, {})`. -/
def adjOf (g : Graph) (n : ℕ) : List (ℕ × ℚ × ℚ × ℚ) :=
  (assocGet g.edges n).getD []

/-- `Graph.is_recharge`. -/
def isRecharge (g : Graph) (n : ℕ) : Bool :=
  g.recharges.contains n

/-- The neighbour-expansion step of `transfer` (lines 114-132 of
`graph.py`): for each outgoing edge whose battery cost is affordable, build
the successor state; arriving at a recharge node resets the battery to
`max_battery` and increments the recharge counter unless the node is the
hub. -/
def pushStates (g : Graph) (st : TState) : List TState :=
  (adjOf g st.node).filterMap fun edge =>
    let v := edge.1
    let dist := edge.2.1
    let risk := edge.2.2.1
    let battCost := edge.2.2.2
    if battCost > st.batt then none
    else
      let newBatt := st.batt - battCost
      if isRecharge g v then
        some ⟨(if v ≠ g.hub then st.rech + 1 else st.rech),
              st.dist + dist, st.risk + risk, v, g.maxBattery⟩
      else
        some ⟨st.rech, st.dist + dist, st.risk + risk, v, newBatt⟩

/-- The best-battery dictionary of `transfer`, keyed by
`(current_node, recharges_used)`. -/
abbrev BestMap := ℕ × ℕ → Option ℚ

/-- The pruning test `previous_best_battery is not None and
previous_best_battery >= battery_remaining`. -/
def prunedCheck (o : Option ℚ) (b : ℚ) : Bool :=
  match o with
  | none => false
  | some pb => decide (pb ≥ b)

/-- Functional update of the best-battery dictionary. -/
def updateBest (best : BestMap) (key : ℕ × ℕ) (v : ℚ) : BestMap :=
  fun k => if k = key then some v else best k

/-- The main loop of `Graph.transfer`, with explicit fuel: `none` means the
fuel ran out before the loop finished, `some none` models the Python
function returning `None` (queue exhausted), and `some (some r)` models a
successful return. -/
def transferFuel (g : Graph) (goal : ℕ) : ℕ → List TState → BestMap → Option (Option (ℚ × ℚ × ℕ × ℚ))
  | 0, _, _ => none
  | fuel + 1, queue, best =>
      match popMin queue with
      | none => some none
      | some (st, rest) =>
          if st.rech > g.recharges.length then
            transferFuel g goal fuel rest best
          else if st.node = goal then
            some (some (st.dist, st.risk, st.rech, st.batt))
          else
            if prunedCheck (best (st.node, st.rech)) st.batt then
              transferFuel g goal fuel rest best
            else
              transferFuel g goal fuel (rest ++ pushStates g st)
                (updateBest best (st.node, st.rech) st.batt)

/-- `Graph.transfer(start, goal, battery_left)` run with the given fuel:
the initial queue holds the single state `(0, 0.0, 0.0, start, battery_left)`
and the best-battery dictionary is empty. -/
def transferRun (g : Graph) (start goal : ℕ) (b : ℚ) (fuel : ℕ) : Option (Option (ℚ × ℚ × ℕ × ℚ)) :=
  transferFuel g goal fuel [⟨0, 0, 0, start, b⟩] (fun _ => none)

/-! ### Termination apparatus for `transfer`

The following definitions support the termination analysis: the battery
values reachable during a `transfer` run all lie in a fixed finite set of
rationals (multiples of a common denominator, inside a fixed interval), and
each expansion strictly shrinks the number of battery values still usable
at its key. -/

/-- All battery costs appearing in the adjacency structure. -/
def battCosts (g : Graph) : List ℚ :=
  (g.edges.map (fun p => p.2.map (fun e => e.2.2.2))).flatten

/-- A common denominator for the initial battery, the capacity and every
battery cost. -/
def denomD (g : Graph) (b0 : ℚ) : ℕ :=
  b0.den * (g.maxBattery.den * ((battCosts g).map Rat.den).prod)

/-- Lower bound for reachable battery values. -/
def loQ (g : Graph) (b0 : ℚ) : ℚ := min 0 (min b0 g.maxBattery)

/-- Upper bound for reachable battery values. -/
def hiQ (g : Graph) (b0 : ℚ) : ℚ := max 0 (max b0 g.maxBattery)

/-- The invariant satisfied by every battery value on the queue: an integer
multiple of `1 / denomD` inside `[loQ, hiQ]`. -/
def inS (g : Graph) (b0 : ℚ) (x : ℚ) : Prop :=
  (∃ n : ℤ, x = n / (denomD g b0 : ℚ)) ∧ loQ g b0 ≤ x ∧ x ≤ hiQ g b0

/-- The finite set housing all reachable battery values. -/
def sFin (g : Graph) (b0 : ℚ) : Finset ℚ :=
  (Finset.Icc ⌈loQ g b0 * (denomD g b0 : ℚ)⌉ ⌊hiQ g b0 * (denomD g b0 : ℚ)⌋).image
    (fun n : ℤ => (n : ℚ) / (denomD g b0 : ℚ))

/-- Whether a battery value would still improve on a recorded best value. -/
def optBelow (o : Option ℚ) (s : ℚ) : Bool :=
  match o with
  | none => true
  | some b => decide (b < s)

/-- Number of battery values that could still trigger an expansion at key
`k`. -/
def remS (g : Graph) (b0 : ℚ) (best : BestMap) (k : ℕ × ℕ) : ℕ :=
  ((sFin g b0).filter (fun s => optBelow (best k) s = true)).card

/-- The keys whose expansions can push successors: nodes with an adjacency
entry, recharge counters up to `len(recharges) + 1`. -/
def keysK (g : Graph) : Finset (ℕ × ℕ) :=
  (g.edges.map Prod.fst).toFinset ×ˢ Finset.range (g.recharges.length + 2)

/-- Total remaining expansion budget. -/
def remTotal (g : Graph) (b0 : ℚ) (best : BestMap) : ℕ :=
  ∑ k ∈ keysK g, remS g b0 best k

/-- Upper bound on the size of any single adjacency list. -/
def adjBound (g : Graph) : ℕ := (g.edges.map (fun p => p.2.length)).sum

/-- The termination measure of the `transfer` loop: each iteration strictly
decreases it. -/
def measureT (g : Graph) (b0 : ℚ) (q : List TState) (best : BestMap) : ℕ :=
  q.length + (adjBound g + 1) * remTotal g b0 best

/-! ## Graph construction (src/common/graph.py, `build_from_json`)

The JSON file is modelled after deserialisation: a record of typed nodes and
zones.  Python computes Euclidean distances with `math.sqrt`; since square
roots are not exactly representable, the square-root function is taken as a
parameter of the construction. -/

/-- The `type` field of a node record; `other` stands for any string other
than the three recognised ones (such nodes are ignored by the scan). -/
inductive NodeType
  | client
  | recharge
  | hub
  | other
deriving DecidableEq, Repr

/-- One entry of the `nodes` array of the JSON file. -/
structure NodeRec where
  nid : ℕ
  x : ℚ
  y : ℚ
  ntype : NodeType
deriving DecidableEq, Repr

/-- One entry of the `forbidden_zones` array. -/
structure ZoneRec where
  polygon : List (ℚ × ℚ)
deriving DecidableEq, Repr

/-- One entry of the `risk_zones` array. -/
structure RiskZoneRec where
  polygon : List (ℚ × ℚ)
  riskFactor : ℚ
deriving DecidableEq, Repr

/-- A deserialised map file. -/
structure MapData where
  maxBattery : ℚ
  nodes : List NodeRec
  forbiddenZones : List ZoneRec
  riskZones : List RiskZoneRec
deriving DecidableEq, Repr

/-- `Polygon.__init__`: fails on fewer than 3 vertices.  The constructed
vertices all carry `pid = 0`; object identity of polygon vertices is never
consulted by the construction (all geometric tests there use
`include_boundary = True`, which short-circuits the identity comparisons). -/
def mkPolygon (ps : List (ℚ × ℚ)) : Except String Poly :=
  if ps.length < 3 then Except.error "Un poligono debe tener 3 o mas vertices"
  else Except.ok (ps.map fun q => ⟨0, q.1, q.2⟩)

/-- The node-classification loop of `build_from_json`: collects client and
recharge identifiers and the hub, failing on a second hub. -/
def scanNodes : List NodeRec → List ℕ × List ℕ × Option ℕ → Except String (List ℕ × List ℕ × Option ℕ)
  | [], acc => Except.ok acc
  | n :: rest, (cl, re, hubOpt) =>
      match n.ntype with
      | NodeType.client => scanNodes rest (cl ++ [n.nid], re, hubOpt)
      | NodeType.recharge => scanNodes rest (cl, re ++ [n.nid], hubOpt)
      | NodeType.hub =>
          match hubOpt with
          | some _ => Except.error "JSON incorrecto: Contiene mas de un hub"
          | none => scanNodes rest (cl, re, some n.nid)
      | NodeType.other => scanNodes rest (cl, re, hubOpt)

/-- Sequential polygon construction for a zone list, failing at the first
degenerate polygon. -/
def mkPolyList : List (List (ℚ × ℚ)) → Except String (List Poly)
  | [] => Except.ok []
  | ps :: rest => do
      let p ← mkPolygon ps
      let l ← mkPolyList rest
      Except.ok (p :: l)

/-- Weight of the edge `i -> j`: `(distance, risk, battery_cost)` with
`battery_cost = distance` and risk accumulated over the intersected risk
zones. -/
def edgeWeight (sqrtFn : ℚ → ℚ) (riskZones : List (Poly × ℚ)) (pi pj : Point) : ℚ × ℚ × ℚ :=
  let distIJ := sqrtFn ((pi.x - pj.x) ^ 2 + (pi.y - pj.y) ^ 2)
  let risk := riskZones.foldl
    (fun acc z => if segmentIntersectsPolygon ⟨pi, pj⟩ z.1 true then acc + z.2 * distIJ else acc) 0
  (distIJ, risk, distIJ)

/-- The double loop of `build_from_json` creating the directed adjacency
structure: an edge `i -> j` (for `i ≠ j`) exists iff the straight segment
between the two points intersects no forbidden zone. -/
def buildEdges (sqrtFn : ℚ → ℚ) (forb : List Poly) (riskZ : List (Poly × ℚ))
    (nodesList : List (ℕ × Point)) : List (ℕ × List (ℕ × ℚ × ℚ × ℚ)) :=
  nodesList.map fun ni =>
    (ni.1, nodesList.filterMap fun nj =>
      if ni.1 = nj.1 then none
      else if forb.any (fun poly => segmentIntersectsPolygon ⟨ni.2, nj.2⟩ poly true) then none
      else some (nj.1, edgeWeight sqrtFn riskZ ni.2 nj.2))

/-- `graph.build_from_json`, starting from deserialised map data (the
`JsonLoader` file handling is outside the model). -/
def buildFromJson (sqrtFn : ℚ → ℚ) (m : MapData) : Except String Graph := do
  let nodesList := m.nodes.map fun n => (n.nid, (⟨0, n.x, n.y⟩ : Point))
  let (clients, recharges, hubOpt) ← scanNodes m.nodes ([], [], none)
  let forb ← mkPolyList (m.forbiddenZones.map (·.polygon))
  let riskPolys ← mkPolyList (m.riskZones.map (·.polygon))
  let riskZ := riskPolys.zip (m.riskZones.map (·.riskFactor))
  let graphEdges := buildEdges sqrtFn forb riskZ nodesList
  match hubOpt with
  | none => Except.error "No se ha definido un hub en el archivo JSON"
  | some hub =>
      Except.ok ⟨m.maxBattery, nodesList, clients, recharges, hub, forb, riskZ, graphEdges⟩

/-! ## Branch & Bound solver (src/exact_bb/branch_and_bound.py)

The solver state threads the Pareto-frontier dictionary (keyed by
`(last_node, visited-frozenset)`) and the best-solutions list.  The solver
only interacts with the graph through `transfer`, which is therefore a
function parameter. -/

/-- Cost triple `(distance, risk, recharges)`; the solver stores all three
components as Python floats (the initial cost is `(0.0, 0.0, 0.0)`). -/
abbrev Cost3 := ℚ × ℚ × ℚ

/-- The dominance test of `_is_dominated` and of the first loop of
`_register_pareto` (both spell out the same formula): `cur` dominates `new`
iff `cur` is no worse on distance, risk, recharges and battery, and strictly
better in at least one of the four. -/
def paretoDominates (cur new : Cost3 × ℚ) : Bool :=
  decide (cur.1.1 ≤ new.1.1) && decide (cur.1.2.1 ≤ new.1.2.1) &&
    decide (cur.1.2.2 ≤ new.1.2.2) && decide (cur.2 ≥ new.2) &&
    (decide (cur.1.1 < new.1.1) || decide (cur.1.2.1 < new.1.2.1) ||
      decide (cur.1.2.2 < new.1.2.2) || decide (cur.2 > new.2))

/-- `BranchAndBoundSolver._is_dominated` on the frontier stored at one key. -/
def isDominatedP (frontier : List (Cost3 × ℚ)) (cost : Cost3) (batt : ℚ) : Bool :=
  frontier.any fun e => paretoDominates e (cost, batt)

/-- `BranchAndBoundSolver._register_pareto` on the frontier stored at one
key: keep the frontier unchanged if an existing entry dominates the new
state, otherwise drop the entries the new state dominates and append it. -/
def registerPareto (frontier : List (Cost3 × ℚ)) (cost : Cost3) (batt : ℚ) : List (Cost3 × ℚ) :=
  if frontier.any (fun e => paretoDominates e (cost, batt)) then frontier
  else (frontier.filter fun e => !(paretoDominates (cost, batt) e)) ++ [(cost, batt)]

/-- `BranchAndBoundSolver._try_complete_solution`.  The removal filter
transcribes the Python condition
`not ((distance <= d) and (risk <= r) and (recharges_used <= rc) and
(distance < d) or (risk < r) or (recharges_used < rc))` with Python operator
precedence: `and` binds tighter than `or`, so the strict risk and recharge
comparisons stand alone as disjuncts. -/
def tryComplete (best : List (List ℕ × Cost3)) (order : List ℕ) (cost : Cost3) :
    List (List ℕ × Cost3) :=
  if best.any (fun s =>
      decide (s.2.1 ≤ cost.1) && decide (s.2.2.1 ≤ cost.2.1) && decide (s.2.2.2 ≤ cost.2.2) &&
        (decide (s.2.1 < cost.1) || decide (s.2.2.1 < cost.2.1) || decide (s.2.2.2 < cost.2.2))) then
    best
  else
    (best.filter fun s =>
      !((decide (cost.1 ≤ s.2.1) && decide (cost.2.1 ≤ s.2.2.1) &&
          decide (cost.2.2 ≤ s.2.2.2) && decide (cost.1 < s.2.1)) ||
        decide (cost.2.1 < s.2.2.1) || decide (cost.2.2 < s.2.2.2))) ++ [(order, cost)]

/-- The mutable state of one `solve` invocation: the Pareto-frontier
dictionary and the best-solutions list. -/
structure BBState where
  pareto : ℕ × Finset ℕ → List (Cost3 × ℚ)
  best : List (List ℕ × Cost3)

/-- A transfer oracle: the signature of `Graph.transfer` as used by the
solver. -/
abbrev TransferFn := ℕ → ℕ → ℚ → Option (ℚ × ℚ × ℕ × ℚ)

mutual

/-- `BranchAndBoundSolver._bb`: prune by dominance, register the state on
the frontier, then either close the tour at the hub or expand to every
unvisited client.  The fuel bounds the recursion depth; `solve` supplies
`clients.length + 1`, which is exact. -/
def bb (clients : List ℕ) (hub : ℕ) (tf : TransferFn) :
    ℕ → ℕ → Finset ℕ → Cost3 → ℚ → List ℕ → BBState → BBState
  | 0, _, _, _, _, _, st => st
  | fuel + 1, lastNode, visited, cost, batt, order, st =>
      if isDominatedP (st.pareto (lastNode, visited)) cost batt then st
      else
        let st1 : BBState :=
          ⟨fun k => if k = (lastNode, visited) then
              registerPareto (st.pareto (lastNode, visited)) cost batt
            else st.pareto k, st.best⟩
        if visited.card = clients.length then
          match tf lastNode hub batt with
          | none => st1
          | some r =>
              ⟨st1.pareto,
               tryComplete st1.best order (cost.1 + r.1, cost.2.1 + r.2.1, cost.2.2 + (r.2.2.1 : ℚ))⟩
        else
          bbFold clients hub tf fuel lastNode visited cost batt order clients st1

/-- The `for client in self.clients` loop of `_bb`. -/
def bbFold (clients : List ℕ) (hub : ℕ) (tf : TransferFn)
    (fuel : ℕ) (lastNode : ℕ) (visited : Finset ℕ) (cost : Cost3) (batt : ℚ) (order : List ℕ) :
    List ℕ → BBState → BBState
  | [], st => st
  | c :: rest, st =>
      let st2 :=
        if c ∈ visited then st
        else
          match tf lastNode c batt with
          | none => st
          | some r =>
              bb clients hub tf fuel c (insert c visited)
                (cost.1 + r.1, cost.2.1 + r.2.1, cost.2.2 + (r.2.2.1 : ℚ)) r.2.2.2
                (order ++ [c]) st
      bbFold clients hub tf fuel lastNode visited cost batt order rest st2

end

/-- `BranchAndBoundSolver.solve`: reset the frontier dictionary and the
best-solutions list, run `_bb` from the hub, return the best solutions. -/
def solveBB (clients : List ℕ) (hub : ℕ) (tf : TransferFn) (startBattery : ℚ) :
    List (List ℕ × Cost3) :=
  (bb clients hub tf (clients.length + 1) hub ∅ (0, 0, 0) startBattery [] ⟨fun _ => [], []⟩).best

/-- The solver applied to a graph, with the `transfer` loop given the stated
fuel (`Graph.transfer` itself is the unbounded loop; every sufficiently
large fuel yields its value). -/
def solveOnGraph (g : Graph) (hub : ℕ) (transferAmt : ℕ) (startBattery : ℚ) :
    List (List ℕ × Cost3) :=
  solveBB g.clients hub (fun s t b => (transferRun g s t b transferAmt).join) startBattery

/-- Mutual non-domination of a frontier: no stored entry dominates another
(under the solver's four-dimensional dominance with at least one strict
comparison). -/
def pairwiseND (l : List (Cost3 × ℚ)) : Prop :=
  ∀ e1 ∈ l, ∀ e2 ∈ l, paretoDominates e1 e2 = false

/-- The per-key frontier invariant of the solver state. -/
def paretoInvariant (st : BBState) : Prop :=
  ∀ k, pairwiseND (st.pareto k)

/-- The priority tuple of a queue state, in the lexicographic order Python
uses to compare heap entries. -/
def stKey (s : TState) : ℕ ×ₗ (ℚ ×ₗ (ℚ ×ₗ (ℕ ×ₗ ℚ))) :=
  toLex (s.rech, toLex (s.dist, toLex (s.risk, toLex (s.node, s.batt))))

/-- Two graphs that agree on everything the solver reads, except that each
adjacency list of the second is a permutation of the first: the model of
"the same map, with the edge dictionaries iterated in another order". -/
def GraphPerm (g1 g2 : Graph) : Prop :=
  g1.maxBattery = g2.maxBattery ∧ g1.clients = g2.clients ∧
    g1.recharges = g2.recharges ∧ g1.hub = g2.hub ∧
    ∀ n, (adjOf g1 n).Perm (adjOf g2 n)

/-- The node-type test counted by the hub analysis. -/
def isHubRec (n : NodeRec) : Bool := n.ntype == NodeType.hub

/-- The best-battery entry at `k`, when present, is below `n`. -/
def bestLT (best : BestMap) (k : ℕ × ℕ) (n : ℕ) : Prop :=
  ∀ v, best k = some v → v < (n : ℚ)

/-- Invariant of the diverging run on `negGraph`: the queue always holds a
single state, alternating between node 0 and node 1, with battery equal to
the lap counter and every recorded best battery strictly below it. -/
def divergeInv (q : List TState) (best : BestMap) : Prop :=
  ∃ n : ℕ,
    (q = [⟨0, 0, 0, 0, (n : ℚ)⟩] ∧ bestLT best (0, 0) n ∧ bestLT best (1, 0) (n + 1)) ∨
    (q = [⟨0, 0, 0, 1, (n : ℚ)⟩] ∧ bestLT best (0, 0) n ∧ bestLT best (1, 0) n)

/-! ## Concrete inputs used by counterexamples and witnesses -/

/-- A two-node graph whose hub (node 1) is not in the recharge list — the
situation `build_from_json` always produces — with a single edge into the
hub of battery cost 1. -/
def hubGraph : Graph :=
  { maxBattery := 100
    nodes := [(0, ⟨0, 0, 0⟩), (1, ⟨1, 3, 4⟩)]
    clients := []
    recharges := []
    hub := 1
    forbiddenZones := []
    riskZones := []
    edges := [(0, [(1, 5, 0, 1)])] }

/-- A graph with a two-node cycle whose edges have battery cost `-1` and an
isolated goal node 2: each lap around the cycle strictly increases the
battery, so the best-battery pruning never fires and `transfer` never
terminates. -/
def negGraph : Graph :=
  { maxBattery := 0
    nodes := [(0, ⟨0, 0, 0⟩), (1, ⟨1, 1, 0⟩), (2, ⟨2, 2, 0⟩)]
    clients := []
    recharges := []
    hub := 2
    forbiddenZones := []
    riskZones := []
    edges := [(0, [(1, 0, 0, -1)]), (1, [(0, 0, 0, -1)])] }

/-- A triangle with vertices `(0,0)`, `(4,0)`, `(0,4)`. -/
def triPoly : Poly := [⟨0, 0, 0⟩, ⟨1, 4, 0⟩, ⟨2, 0, 4⟩]

/-- The horizontal segment from `(-1, 1)` to `(5, 1)`: it passes straight
through `triPoly`, with both endpoints strictly outside. -/
def segThrough : Segment := ⟨⟨3, -1, 1⟩, ⟨4, 5, 1⟩⟩

/-- The vertical segment from `(2, -2)` to `(2, 0)`: it touches the bottom
edge of `triPoly` from outside at a single point. -/
def segTouch : Segment := ⟨⟨5, 2, -2⟩, ⟨6, 2, 0⟩⟩

/-- A sliver triangle whose long bottom edge runs from `(20, 1e-10)` to
`(-20, -1.75e-10)`, with apex `(0, 100)`. -/
def sliverPoly : Poly :=
  [⟨10, 20, 1 / 10000000000⟩, ⟨11, -20, -7 / 40000000000⟩, ⟨12, 0, 100⟩]

/-- The segment from `(0, 0)` to `(10, 0)`.  It genuinely crosses the bottom
edge of `sliverPoly`, but at so shallow an angle that every turn value falls
inside the EPSILON band used by `segments_intersect`. -/
def segShallow : Segment := ⟨⟨13, 0, 0⟩, ⟨14, 10, 0⟩⟩

/-- Collinear segments sharing the endpoint object `(0,0)` (same `pid`):
the first runs from `(1,0)` to `(0,0)`. -/
def segSharedL : Segment := ⟨⟨0, 1, 0⟩, ⟨1, 0, 0⟩⟩

/-- The second collinear segment, from the shared `(0,0)` object to `(4,0)`. -/
def segSharedR : Segment := ⟨⟨1, 0, 0⟩, ⟨2, 4, 0⟩⟩

/-- A small map with a hub and two clients, its adjacency list for the hub
in one order. -/
def permGraphA : Graph :=
  { maxBattery := 100
    nodes := [(0, ⟨0, 0, 0⟩), (1, ⟨1, 3, 4⟩), (2, ⟨2, 6, 8⟩)]
    clients := [1, 2]
    recharges := []
    hub := 0
    forbiddenZones := []
    riskZones := []
    edges := [(0, [(1, 5, 0, 5), (2, 10, 0, 10)]), (1, [(0, 5, 0, 5)]), (2, [(0, 10, 0, 10)])] }

/-- The same map with the hub adjacency list in the opposite order (the edge
dictionary iterated differently). -/
def permGraphB : Graph :=
  { maxBattery := 100
    nodes := [(0, ⟨0, 0, 0⟩), (1, ⟨1, 3, 4⟩), (2, ⟨2, 6, 8⟩)]
    clients := [1, 2]
    recharges := []
    hub := 0
    forbiddenZones := []
    riskZones := []
    edges := [(0, [(2, 10, 0, 10), (1, 5, 0, 5)]), (1, [(0, 5, 0, 5)]), (2, [(0, 10, 0, 10)])] }

/-! ## Geometry lemmas -/

/-- `EPS` is positive. -/
theorem EPS_pos : 0 < EPS := by norm_num [EPS]

/-- Characterisation of `segments_intersect` with `include_endpoints=True`:
since every early return then yields `True`, the function is the disjunction
of the proper-crossing test and the four collinear-touch conditions. -/
theorem segmentsIntersect_true_iff (s1 s2 : Segment) :
    segmentsIntersect s1 s2 true = true ↔
      (((turn s1.a s1.b s2.a > EPS ∧ turn s1.a s1.b s2.b < -EPS) ∨
        (turn s1.a s1.b s2.a < -EPS ∧ turn s1.a s1.b s2.b > EPS)) ∧
       ((turn s2.a s2.b s1.a > EPS ∧ turn s2.a s2.b s1.b < -EPS) ∨
        (turn s2.a s2.b s1.a < -EPS ∧ turn s2.a s2.b s1.b > EPS))) ∨
      (|turn s1.a s1.b s2.a| ≤ EPS ∧ onSegment s1.a s1.b s2.a = true) ∨
      (|turn s1.a s1.b s2.b| ≤ EPS ∧ onSegment s1.a s1.b s2.b = true) ∨
      (|turn s2.a s2.b s1.a| ≤ EPS ∧ onSegment s2.a s2.b s1.a = true) ∨
      (|turn s2.a s2.b s1.b| ≤ EPS ∧ onSegment s2.a s2.b s1.b = true) := by
  unfold segmentsIntersect
  dsimp only
  split_ifs with h1 h2 h3 h4 h5 <;> simp_all

/-- The counting loop of `segment_crosses_polygon` returns true exactly when
the running count plus the number of remaining intersected edges reaches 2
(for the running counts below 2 that actually occur). -/
theorem crossLoop_eq (s : Segment) :
    ∀ (es : List Segment) (c : ℕ), c < 2 →
      crossLoop s es c = decide (2 ≤ c + es.countP (fun e => segmentsIntersect s e true)) := by
  intro es
  induction es with
  | nil =>
      intro c hc
      simp only [crossLoop, List.countP_nil]
      symm
      rw [decide_eq_false_iff_not]
      omega
  | cons e es ih =>
      intro c hc
      simp only [crossLoop, List.countP_cons]
      by_cases h : segmentsIntersect s e true = true
      · simp only [h, if_true]
        by_cases h2 : 2 ≤ c + 1
        · rw [if_pos h2]
          symm
          rw [decide_eq_true_eq]
          omega
        · rw [if_neg h2, ih (c + 1) (by omega), decide_eq_decide]
          omega
      · simp only [h, if_false, Bool.false_eq_true]
        rw [ih c hc, decide_eq_decide]
        omega

/-! ## Claim C5: symmetry of `segments_intersect` -/

/-- C5 counterexample: with `include_endpoints = False`, swapping the two
segment arguments changes the result.  The segments are collinear, share the
endpoint object `(0,0)` (same `pid`), and the other endpoint of the first
segment lies strictly inside the second: in one order the first collinear
check hits the shared endpoint and returns `False`, in the other order the
first check that fires hits the interior point and returns `True`. -/
theorem segmentsIntersect_not_symm_false :
    ¬(segmentsIntersect segSharedL segSharedR false =
      segmentsIntersect segSharedR segSharedL false) := by
  have h1 : segmentsIntersect segSharedL segSharedR false = false := by
    with_unfolding_all decide
  have h2 : segmentsIntersect segSharedR segSharedL false = true := by
    with_unfolding_all decide
  rw [h1, h2]
  simp

/-- C5 amended: `segments_intersect` is symmetric in its two segment
arguments when `include_endpoints = True` (for `include_endpoints = False`
the counterexample above refutes symmetry). -/
theorem segmentsIntersect_symm_true (s1 s2 : Segment) :
    segmentsIntersect s1 s2 true = segmentsIntersect s2 s1 true := by
  rw [Bool.eq_iff_iff, segmentsIntersect_true_iff, segmentsIntersect_true_iff]
  constructor <;> rintro (⟨ha, hb⟩ | h | h | h | h)
  · exact Or.inl ⟨hb, ha⟩
  · exact Or.inr (Or.inr (Or.inr (Or.inl h)))
  · exact Or.inr (Or.inr (Or.inr (Or.inr h)))
  · exact Or.inr (Or.inl h)
  · exact Or.inr (Or.inr (Or.inl h))
  · exact Or.inl ⟨hb, ha⟩
  · exact Or.inr (Or.inr (Or.inr (Or.inl h)))
  · exact Or.inr (Or.inr (Or.inr (Or.inr h)))
  · exact Or.inr (Or.inl h)
  · exact Or.inr (Or.inr (Or.inl h))

/-! ## Claim C4: crossing versus boundary intersection

The forward implication of the claim fails (a segment can satisfy the
endpoint-parity test without `segments_intersect` detecting any edge, when
all turn values fall inside the EPSILON band); what does hold is that the
counting branch of `segment_crosses_polygon` forces
`segment_intersects_polygon`.  The chain below shows that any
boundary-inclusive segment-edge intersection forces the two bounding boxes
to EPS-overlap, hence the polygon bounding box as well, so the bbox
fast-reject of `segment_intersects_polygon` cannot fire. -/

/-- An affine combination with parameter in `[0,1]` stays between its two
endpoints. -/
theorem param_bounds {u v t : ℚ} (h0 : 0 ≤ t) (h1 : t ≤ 1) :
    min u v ≤ u + t * (v - u) ∧ u + t * (v - u) ≤ max u v := by
  rcases le_total u v with h | h
  · rw [min_eq_left h, max_eq_right h]
    constructor <;> nlinarith
  · rw [min_eq_right h, max_eq_left h]
    constructor <;> nlinarith

/-- The interpolation ratio `p / (p - q)` lies in `[0,1]` when `p` and `q`
have strictly opposite signs. -/
theorem ratio_bounds {p q : ℚ} (h : (0 < p ∧ q < 0) ∨ (p < 0 ∧ 0 < q)) :
    0 ≤ p / (p - q) ∧ p / (p - q) ≤ 1 := by
  rcases h with ⟨hp, hq⟩ | ⟨hp, hq⟩
  · have hd : 0 < p - q := by linarith
    exact ⟨div_nonneg hp.le hd.le, by rw [div_le_one hd]; linarith⟩
  · have hd : p - q < 0 := by linarith
    constructor
    · rw [div_nonneg_iff]
      exact Or.inr ⟨hp.le, hd.le⟩
    · rw [div_le_one_of_neg hd]
      linarith

/-- When the proper-crossing test of `segments_intersect` succeeds, the two
(closed) segments share a point; the lemma returns its coordinates together
with membership in both bounding boxes. -/
theorem gp_meet (a b c d : Point)
    (h1 : (turn a b c > EPS ∧ turn a b d < -EPS) ∨ (turn a b c < -EPS ∧ turn a b d > EPS))
    (h2 : (turn c d a > EPS ∧ turn c d b < -EPS) ∨ (turn c d a < -EPS ∧ turn c d b > EPS)) :
    ∃ px py : ℚ,
      (min a.x b.x ≤ px ∧ px ≤ max a.x b.x ∧ min a.y b.y ≤ py ∧ py ≤ max a.y b.y) ∧
      (min c.x d.x ≤ px ∧ px ≤ max c.x d.x ∧ min c.y d.y ≤ py ∧ py ≤ max c.y d.y) := by
  have e0 : (0 : ℚ) < EPS := EPS_pos
  have h1s : (0 < turn a b c ∧ turn a b d < 0) ∨ (turn a b c < 0 ∧ 0 < turn a b d) := by
    rcases h1 with ⟨x, y⟩ | ⟨x, y⟩
    · exact Or.inl ⟨by linarith, by linarith⟩
    · exact Or.inr ⟨by linarith, by linarith⟩
  have h2s : (0 < turn c d a ∧ turn c d b < 0) ∨ (turn c d a < 0 ∧ 0 < turn c d b) := by
    rcases h2 with ⟨x, y⟩ | ⟨x, y⟩
    · exact Or.inl ⟨by linarith, by linarith⟩
    · exact Or.inr ⟨by linarith, by linarith⟩
  have hSd : turn c d a - turn c d b ≠ 0 := by
    rcases h2s with ⟨x, y⟩ | ⟨x, y⟩ <;> intro hh <;> linarith
  have hTd : turn a b c - turn a b d ≠ 0 := by
    rcases h1s with ⟨x, y⟩ | ⟨x, y⟩ <;> intro hh <;> linarith
  obtain ⟨ht0, ht1⟩ := ratio_bounds h2s
  obtain ⟨hu0, hu1⟩ := ratio_bounds h1s
  set t : ℚ := turn c d a / (turn c d a - turn c d b) with htdef
  set u : ℚ := turn a b c / (turn a b c - turn a b d) with hudef
  have hex : a.x + t * (b.x - a.x) = c.x + u * (d.x - c.x) := by
    rw [htdef, hudef]
    simp only [turn] at hSd hTd ⊢
    field_simp
    ring
  have hey : a.y + t * (b.y - a.y) = c.y + u * (d.y - c.y) := by
    rw [htdef, hudef]
    simp only [turn] at hSd hTd ⊢
    field_simp
    ring
  refine ⟨a.x + t * (b.x - a.x), a.y + t * (b.y - a.y), ?_, ?_⟩
  · obtain ⟨hx1, hx2⟩ := param_bounds (u := a.x) (v := b.x) ht0 ht1
    obtain ⟨hy1, hy2⟩ := param_bounds (u := a.y) (v := b.y) ht0 ht1
    exact ⟨hx1, hx2, hy1, hy2⟩
  · rw [hex, hey]
    obtain ⟨hx1, hx2⟩ := param_bounds (u := c.x) (v := d.x) hu0 hu1
    obtain ⟨hy1, hy2⟩ := param_bounds (u := c.y) (v := d.y) hu0 hu1
    exact ⟨hx1, hx2, hy1, hy2⟩

/-- Unfolding of `bboxIntersect` into four non-separation facts. -/
theorem bboxIntersect_eq_true_iff (b1 b2 : ℚ × ℚ × ℚ × ℚ) :
    bboxIntersect b1 b2 = true ↔
      ¬(b1.2.2.1 < b2.1 - EPS) ∧ ¬(b2.2.2.1 < b1.1 - EPS) ∧
      ¬(b1.2.2.2 < b2.2.1 - EPS) ∧ ¬(b2.2.2.2 < b1.2.1 - EPS) := by
  unfold bboxIntersect
  simp only [Bool.not_eq_true', Bool.or_eq_false_iff, decide_eq_false_iff_not, and_assoc]

/-- `bboxIntersect` holds whenever some point lies in the first box up to an
EPS margin and in the second box exactly. -/
theorem bboxIntersect_of_witness (b1 b2 : ℚ × ℚ × ℚ × ℚ) (px py : ℚ)
    (hx1 : b1.1 - EPS ≤ px) (hx2 : px ≤ b1.2.2.1 + EPS)
    (hy1 : b1.2.1 - EPS ≤ py) (hy2 : py ≤ b1.2.2.2 + EPS)
    (gx1 : b2.1 ≤ px) (gx2 : px ≤ b2.2.2.1)
    (gy1 : b2.2.1 ≤ py) (gy2 : py ≤ b2.2.2.2) :
    bboxIntersect b1 b2 = true := by
  rw [bboxIntersect_eq_true_iff]
  have e0 : (0 : ℚ) < EPS := EPS_pos
  refine ⟨?_, ?_, ?_, ?_⟩ <;> intro hlt <;> linarith

/-- `bboxIntersect` is symmetric. -/
theorem bboxIntersect_comm (b1 b2 : ℚ × ℚ × ℚ × ℚ) :
    bboxIntersect b1 b2 = bboxIntersect b2 b1 := by
  rw [Bool.eq_iff_iff, bboxIntersect_eq_true_iff, bboxIntersect_eq_true_iff]
  tauto

/-- A boundary-inclusive segment intersection forces the two segment
bounding boxes to EPS-overlap. -/
theorem segmentsIntersect_true_bbox (s e : Segment)
    (h : segmentsIntersect s e true = true) :
    bboxIntersect (segBox s) (segBox e) = true := by
  have e0 : (0 : ℚ) < EPS := EPS_pos
  rw [segmentsIntersect_true_iff] at h
  rcases h with ⟨h1, h2⟩ | ⟨ht, hs⟩ | ⟨ht, hs⟩ | ⟨ht, hs⟩ | ⟨ht, hs⟩
  · obtain ⟨px, py, ⟨ax1, ax2, ay1, ay2⟩, ⟨cx1, cx2, cy1, cy2⟩⟩ := gp_meet s.a s.b e.a e.b h1 h2
    exact bboxIntersect_of_witness _ _ px py (by simp only [segBox]; linarith)
      (by simp only [segBox]; linarith) (by simp only [segBox]; linarith)
      (by simp only [segBox]; linarith) (by simp only [segBox]; linarith)
      (by simp only [segBox]; linarith) (by simp only [segBox]; linarith)
      (by simp only [segBox]; linarith)
  · -- the first endpoint of `e` lies (within EPS) on `s`
    simp only [onSegment, Bool.and_eq_true, decide_eq_true_eq] at hs
    obtain ⟨⟨⟨hx1, hx2⟩, hy1⟩, hy2⟩ := hs
    exact bboxIntersect_of_witness _ _ e.a.x e.a.y (by simpa [segBox] using hx1)
      (by simpa [segBox] using hx2) (by simpa [segBox] using hy1)
      (by simpa [segBox] using hy2) (by simp [segBox, min_le_left])
      (by simp [segBox, le_max_left]) (by simp [segBox, min_le_left])
      (by simp [segBox, le_max_left])
  · simp only [onSegment, Bool.and_eq_true, decide_eq_true_eq] at hs
    obtain ⟨⟨⟨hx1, hx2⟩, hy1⟩, hy2⟩ := hs
    exact bboxIntersect_of_witness _ _ e.b.x e.b.y (by simpa [segBox] using hx1)
      (by simpa [segBox] using hx2) (by simpa [segBox] using hy1)
      (by simpa [segBox] using hy2) (by simp [segBox, min_le_right])
      (by simp [segBox, le_max_right]) (by simp [segBox, min_le_right])
      (by simp [segBox, le_max_right])
  · -- the first endpoint of `s` lies (within EPS) on `e`
    simp only [onSegment, Bool.and_eq_true, decide_eq_true_eq] at hs
    obtain ⟨⟨⟨hx1, hx2⟩, hy1⟩, hy2⟩ := hs
    rw [bboxIntersect_comm]
    exact bboxIntersect_of_witness _ _ s.a.x s.a.y (by simpa [segBox] using hx1)
      (by simpa [segBox] using hx2) (by simpa [segBox] using hy1)
      (by simpa [segBox] using hy2) (by simp [segBox, min_le_left])
      (by simp [segBox, le_max_left]) (by simp [segBox, min_le_left])
      (by simp [segBox, le_max_left])
  · simp only [onSegment, Bool.and_eq_true, decide_eq_true_eq] at hs
    obtain ⟨⟨⟨hx1, hx2⟩, hy1⟩, hy2⟩ := hs
    rw [bboxIntersect_comm]
    exact bboxIntersect_of_witness _ _ s.b.x s.b.y (by simpa [segBox] using hx1)
      (by simpa [segBox] using hx2) (by simpa [segBox] using hy1)
      (by simpa [segBox] using hy2) (by simp [segBox, min_le_right])
      (by simp [segBox, le_max_right]) (by simp [segBox, min_le_right])
      (by simp [segBox, le_max_right])

/-- Both endpoints of every polygon edge are polygon vertices. -/
theorem mem_polyEdges {vs : Poly} {e : Segment} (h : e ∈ polyEdges vs) :
    e.a ∈ vs ∧ e.b ∈ vs := by
  unfold polyEdges at h
  have key : ∀ (l1 l2 : List Point), e ∈ List.zipWith Segment.mk l1 l2 → e.a ∈ l1 ∧ e.b ∈ l2 := by
    intro l1
    induction l1 with
    | nil => intro l2 h2; simp at h2
    | cons x xs ih =>
        intro l2 h2
        cases l2 with
        | nil => simp at h2
        | cons y ys =>
            simp only [List.zipWith_cons_cons, List.mem_cons] at h2
            rcases h2 with h2 | h2
            · subst h2
              exact ⟨List.mem_cons_self _ _, List.mem_cons_self _ _⟩
            · obtain ⟨ha, hb⟩ := ih ys h2
              exact ⟨List.mem_cons_of_mem _ ha, List.mem_cons_of_mem _ hb⟩
  obtain ⟨ha, hb⟩ := key vs (vs.rotate 1) h
  exact ⟨ha, List.mem_rotate.mp hb⟩

/-- The running minimum of a fold is below its initial value. -/
theorem foldl_min_le_init (g : Point → ℚ) :
    ∀ (l : List Point) (i : ℚ), l.foldl (fun m p => min m (g p)) i ≤ i := by
  intro l
  induction l with
  | nil => intro i; simp
  | cons x xs ih =>
      intro i
      calc (x :: xs).foldl (fun m p => min m (g p)) i
          = xs.foldl (fun m p => min m (g p)) (min i (g x)) := rfl
        _ ≤ min i (g x) := ih _
        _ ≤ i := min_le_left _ _

/-- The running minimum of a fold is below every list element. -/
theorem foldl_min_le_mem (g : Point → ℚ) :
    ∀ (l : List Point) (i : ℚ) (p : Point), p ∈ l →
      l.foldl (fun m q => min m (g q)) i ≤ g p := by
  intro l
  induction l with
  | nil => intro i p hp; simp at hp
  | cons x xs ih =>
      intro i p hp
      rcases List.mem_cons.mp hp with hp | hp
      · subst hp
        calc (p :: xs).foldl (fun m q => min m (g q)) i
            = xs.foldl (fun m q => min m (g q)) (min i (g p)) := rfl
          _ ≤ min i (g p) := foldl_min_le_init g xs _
          _ ≤ g p := min_le_right _ _
      · exact ih (min i (g x)) p hp

/-- The running maximum of a fold is above its initial value. -/
theorem le_foldl_max_init (g : Point → ℚ) :
    ∀ (l : List Point) (i : ℚ), i ≤ l.foldl (fun m p => max m (g p)) i := by
  intro l
  induction l with
  | nil => intro i; simp
  | cons x xs ih =>
      intro i
      calc i ≤ max i (g x) := le_max_left _ _
        _ ≤ xs.foldl (fun m p => max m (g p)) (max i (g x)) := ih _
        _ = (x :: xs).foldl (fun m p => max m (g p)) i := rfl

/-- The running maximum of a fold is above every list element. -/
theorem le_foldl_max_mem (g : Point → ℚ) :
    ∀ (l : List Point) (i : ℚ) (p : Point), p ∈ l →
      g p ≤ l.foldl (fun m q => max m (g q)) i := by
  intro l
  induction l with
  | nil => intro i p hp; simp at hp
  | cons x xs ih =>
      intro i p hp
      rcases List.mem_cons.mp hp with hp | hp
      · subst hp
        calc g p ≤ max i (g p) := le_max_right _ _
          _ ≤ xs.foldl (fun m q => max m (g q)) (max i (g p)) := le_foldl_max_init g xs _
          _ = (p :: xs).foldl (fun m q => max m (g q)) i := rfl
      · exact ih (max i (g x)) p hp

/-- Every vertex lies inside the polygon bounding box. -/
theorem mem_boundBox {vs : Poly} {v : Point} (h : v ∈ vs) :
    (boundBox vs).1 ≤ v.x ∧ v.x ≤ (boundBox vs).2.2.1 ∧
    (boundBox vs).2.1 ≤ v.y ∧ v.y ≤ (boundBox vs).2.2.2 := by
  cases vs with
  | nil => simp at h
  | cons w ws =>
      rcases List.mem_cons.mp h with hv | hv
      · subst hv
        exact ⟨foldl_min_le_init _ ws _, le_foldl_max_init _ ws _,
               foldl_min_le_init _ ws _, le_foldl_max_init _ ws _⟩
      · exact ⟨foldl_min_le_mem _ ws _ v hv, le_foldl_max_mem _ ws _ v hv,
               foldl_min_le_mem _ ws _ v hv, le_foldl_max_mem _ ws _ v hv⟩

/-- The bounding box of a polygon edge is contained in the polygon bounding
box. -/
theorem segBox_le_boundBox {vs : Poly} {e : Segment} (h : e ∈ polyEdges vs) :
    (boundBox vs).1 ≤ (segBox e).1 ∧ (segBox e).2.2.1 ≤ (boundBox vs).2.2.1 ∧
    (boundBox vs).2.1 ≤ (segBox e).2.1 ∧ (segBox e).2.2.2 ≤ (boundBox vs).2.2.2 := by
  obtain ⟨ha, hb⟩ := mem_polyEdges h
  obtain ⟨hax1, hax2, hay1, hay2⟩ := mem_boundBox ha
  obtain ⟨hbx1, hbx2, hby1, hby2⟩ := mem_boundBox hb
  refine ⟨le_min hax1 hbx1, max_le hax2 hbx2, le_min hay1 hby1, max_le hay2 hby2⟩

/-- If the segment box EPS-overlaps an inner box, it EPS-overlaps any outer
box. -/
theorem bboxIntersect_mono (b1 bi bo : ℚ × ℚ × ℚ × ℚ)
    (h : bboxIntersect b1 bi = true)
    (hc : bo.1 ≤ bi.1 ∧ bi.2.2.1 ≤ bo.2.2.1 ∧ bo.2.1 ≤ bi.2.1 ∧ bi.2.2.2 ≤ bo.2.2.2) :
    bboxIntersect b1 bo = true := by
  rw [bboxIntersect_eq_true_iff] at h ⊢
  obtain ⟨h1, h2, h3, h4⟩ := h
  obtain ⟨c1, c2, c3, c4⟩ := hc
  refine ⟨?_, ?_, ?_, ?_⟩ <;> intro hlt <;> [exact h1 (by linarith); exact h2 (by linarith);
    exact h3 (by linarith); exact h4 (by linarith)]

/-- C4 counterexample: `segment_crosses_polygon` holds for `segShallow`
against `sliverPoly` (the endpoint-parity branch fires: `(0,0)` is strictly
inside by ray casting, `(10,0)` is not), yet `segment_intersects_polygon`
with boundary included is false: the segment truly crosses the bottom edge,
but every turn value lies inside the EPSILON band while the collinear
bounding-box checks fail, so no edge is reported as intersecting. -/
theorem crosses_without_intersects :
    segmentCrossesPolygon segShallow sliverPoly = true ∧
      segmentIntersectsPolygon segShallow sliverPoly true = false := by
  constructor <;> with_unfolding_all decide

/-- C4 amended: whenever `segment_crosses_polygon` accepts through its
counting branch — at least two polygon edges intersect the segment
boundary-inclusively — `segment_intersects_polygon` with
`include_boundary=True` is true (the bounding-box fast-reject cannot fire
because an intersected edge already forces an EPS-overlap); and the converse
implication fails: `segTouch` meets the boundary of `triPoly` while
`segment_crosses_polygon` is false.  For crossings detected only by the
endpoint-parity branch the implication is refuted by
`crosses_without_intersects`. -/
theorem segmentIntersectsPolygon_of_two_crossings :
    (∀ (s : Segment) (vs : Poly),
        2 ≤ (polyEdges vs).countP (fun e => segmentsIntersect s e true) →
        segmentIntersectsPolygon s vs true = true) ∧
      (segmentIntersectsPolygon segTouch triPoly true = true ∧
        segmentCrossesPolygon segTouch triPoly = false) := by
  constructor
  · intro s vs hcount
    obtain ⟨e, he, hpe⟩ := List.countP_pos_iff.mp (by omega :
      0 < (polyEdges vs).countP (fun e => segmentsIntersect s e true))
    have hbb : bboxIntersect (segBox s) (boundBox vs) = true :=
      bboxIntersect_mono _ _ _ (segmentsIntersect_true_bbox s e (by simpa using hpe))
        (segBox_le_boundBox he)
    unfold segmentIntersectsPolygon
    rw [if_neg (by simp [hbb])]
    exact List.any_eq_true.mpr ⟨e, he, by simpa using hpe⟩
  · constructor <;> with_unfolding_all decide

/-- Witness for the universal part of the amended C4: the through-going
segment of the C3 counterexample meets two edges of the triangle, and the
theorem then yields the boundary intersection. -/
theorem segmentIntersectsPolygon_of_two_crossings_witness :
    2 ≤ (polyEdges triPoly).countP (fun e => segmentsIntersect segThrough e true) ∧
      segmentIntersectsPolygon segThrough triPoly true = true :=
  ⟨by with_unfolding_all decide,
   segmentIntersectsPolygon_of_two_crossings.1 segThrough triPoly
     (by with_unfolding_all decide)⟩

/-! ## Claim C3: `segment_crosses_polygon` -/

/-- C3 counterexample: for the segment `(-1,1) -- (5,1)` straight through
the triangle `(0,0), (4,0), (0,4)`, both endpoints lie strictly outside the
polygon (so the claim demands `false`) yet `segment_crosses_polygon` returns
`true`, because the counting loop runs regardless of where the endpoints
lie and the segment meets two edges. -/
theorem segmentCrossesPolygon_both_outside_true :
    segmentCrossesPolygon segThrough triPoly = true ∧
      pointInPolygon segThrough.a triPoly false = false ∧
      pointInPolygon segThrough.b triPoly false = false := by
  refine ⟨?_, ?_, ?_⟩ <;> with_unfolding_all decide

/-- C3 amended: `segment_crosses_polygon` returns true iff exactly one
endpoint lies strictly inside the polygon (boundary excluded), or the
segment intersects at least two polygon edges (boundary-inclusive) —
regardless, in the second case, of where the endpoints lie. -/
theorem segmentCrossesPolygon_eq (s : Segment) (vs : Poly) :
    segmentCrossesPolygon s vs =
      (decide (pointInPolygon s.a vs false ≠ pointInPolygon s.b vs false) ||
        decide (2 ≤ (polyEdges vs).countP (fun e => segmentsIntersect s e true))) := by
  unfold segmentCrossesPolygon
  dsimp only
  by_cases h : pointInPolygon s.a vs false = pointInPolygon s.b vs false
  · rw [if_neg (by simp [h]), crossLoop_eq s _ 0 (by omega)]
    simp [h]
  · rw [if_pos h]
    simp [h]

/-! ## Claim C10: `transfer(n, n, b)` -/

/-- C10: for a start node equal to the goal, the very first pop of the
priority queue returns immediately: accumulated distance and risk are `0.0`,
no recharge is counted and the battery is returned unchanged — even when the
node is a recharge node, since arrival effects only apply when traversing an
edge. -/
theorem transfer_same_node (g : Graph) (n : ℕ) (b : ℚ) (fuel : ℕ)
    (hn : n ∈ g.nodes.map Prod.fst) (hf : 1 ≤ fuel) :
    transferRun g n n b fuel = some (some (0, 0, 0, b)) := by
  obtain ⟨f, rfl⟩ : ∃ f, fuel = f + 1 := ⟨fuel - 1, by omega⟩
  simp [transferRun, transferFuel, popMin, listMin]

/-- Witness for C10 at a concrete graph (the hub graph, the recharge-free
node 0, battery 7, fuel 1). -/
theorem transfer_same_node_witness :
    transferRun hubGraph 0 0 7 1 = some (some (0, 0, 0, 7)) :=
  transfer_same_node hubGraph 0 7 1 (by decide) (by decide)

/-! ## Claim C1: battery reset on arrival -/

/-- C1, evaluation at the failing input: in `hubGraph` the hub is not a
member of the recharge list (as for every graph `build_from_json`
produces), and travelling the edge `0 -> 1` into the hub with battery 5 and
battery cost 1 returns battery `4`: the code leaves the battery at
`battery - cost` on hub arrival instead of resetting it to
`max_battery = 100`, because the reset is guarded by `is_recharge`, which
is false at the hub. -/
theorem transfer_hub_no_reset :
    hubGraph.hub ∉ hubGraph.recharges ∧
      transferRun hubGraph 0 1 5 2 = some (some (5, 0, 0, 4)) ∧
      (4 : ℚ) ≠ hubGraph.maxBattery := by
  refine ⟨by decide, by with_unfolding_all decide, by with_unfolding_all decide⟩

/-! ## Claim C7, counterexample: `transfer` can loop forever -/

/-- On `negGraph`, any amount of fuel is exhausted from any state satisfying
the invariant. -/
theorem negGraph_fuel_out :
    ∀ (fuel : ℕ) (q : List TState) (best : BestMap),
      divergeInv q best → transferFuel negGraph 2 fuel q best = none := by
  intro fuel
  induction fuel with
  | zero => intro q best _; rfl
  | succ f ih =>
      intro q best hP
      obtain ⟨n, hA | hB⟩ := hP
      · obtain ⟨hq, h00, h10⟩ := hA
        subst hq
        have hnn : (0 : ℚ) ≤ (n : ℚ) := Nat.cast_nonneg n
        have hc : ¬((-1 : ℚ) > (n : ℚ)) := by linarith
        have hpush : pushStates negGraph ⟨0, 0, 0, 0, (n : ℚ)⟩ =
            [⟨0, 0, 0, 1, ((n + 1 : ℕ) : ℚ)⟩] := by
          simp only [pushStates]
          rw [show adjOf negGraph (⟨0, 0, 0, 0, (n : ℚ)⟩ : TState).node = [(1, 0, 0, -1)] from rfl]
          simp only [List.filterMap_cons, List.filterMap_nil]
          rw [if_neg hc]
          rw [show isRecharge negGraph 1 = false from rfl]
          simp only [Bool.false_eq_true, if_false, TState.mk.injEq]
          norm_num
        have hprune : prunedCheck (best (0, 0)) (n : ℚ) = false := by
          cases hb : best (0, 0) with
          | none => rfl
          | some v =>
              simp only [prunedCheck, decide_eq_false_iff_not, not_le, ge_iff_le]
              exact h00 v hb
        have hstep : transferFuel negGraph 2 (f + 1) [⟨0, 0, 0, 0, (n : ℚ)⟩] best =
            transferFuel negGraph 2 f [⟨0, 0, 0, 1, ((n + 1 : ℕ) : ℚ)⟩]
              (updateBest best (0, 0) (n : ℚ)) := by
          simp only [transferFuel, popMin, listMin, List.erase_cons_head]
          rw [if_neg (by simp [negGraph]), if_neg (by omega)]
          rw [hprune]
          simp only [Bool.false_eq_true, if_false, List.nil_append, hpush]
        rw [hstep]
        refine ih _ _ ⟨n + 1, Or.inr ⟨rfl, ?_, ?_⟩⟩
        · intro v hv
          simp [updateBest] at hv
          subst hv
          push_cast
          linarith
        · intro v hv
          have hne : ((1 : ℕ), (0 : ℕ)) ≠ ((0 : ℕ), (0 : ℕ)) := by decide
          simp only [updateBest, if_neg hne] at hv
          exact h10 v hv
      · obtain ⟨hq, h00, h10⟩ := hB
        subst hq
        have hnn : (0 : ℚ) ≤ (n : ℚ) := Nat.cast_nonneg n
        have hc : ¬((-1 : ℚ) > (n : ℚ)) := by linarith
        have hpush : pushStates negGraph ⟨0, 0, 0, 1, (n : ℚ)⟩ =
            [⟨0, 0, 0, 0, ((n + 1 : ℕ) : ℚ)⟩] := by
          simp only [pushStates]
          rw [show adjOf negGraph (⟨0, 0, 0, 1, (n : ℚ)⟩ : TState).node = [(0, 0, 0, -1)] from rfl]
          simp only [List.filterMap_cons, List.filterMap_nil]
          rw [if_neg hc]
          rw [show isRecharge negGraph 0 = false from rfl]
          simp only [Bool.false_eq_true, if_false, TState.mk.injEq]
          norm_num
        have hprune : prunedCheck (best (1, 0)) (n : ℚ) = false := by
          cases hb : best (1, 0) with
          | none => rfl
          | some v =>
              simp only [prunedCheck, decide_eq_false_iff_not, not_le, ge_iff_le]
              exact h10 v hb
        have hstep : transferFuel negGraph 2 (f + 1) [⟨0, 0, 0, 1, (n : ℚ)⟩] best =
            transferFuel negGraph 2 f [⟨0, 0, 0, 0, ((n + 1 : ℕ) : ℚ)⟩]
              (updateBest best (1, 0) (n : ℚ)) := by
          simp only [transferFuel, popMin, listMin, List.erase_cons_head]
          rw [if_neg (by simp [negGraph]), if_neg (by omega)]
          rw [hprune]
          simp only [Bool.false_eq_true, if_false, List.nil_append, hpush]
        rw [hstep]
        refine ih _ _ ⟨n + 1, Or.inl ⟨rfl, ?_, ?_⟩⟩
        · intro v hv
          have hne : ((0 : ℕ), (0 : ℕ)) ≠ ((1 : ℕ), (0 : ℕ)) := by decide
          simp only [updateBest, if_neg hne] at hv
          have := h00 v hv
          push_cast
          linarith
        · intro v hv
          simp [updateBest] at hv
          subst hv
          push_cast
          linarith

/-- C7 counterexample: on the finite graph `negGraph` (three nodes, a
two-edge cycle of battery cost `-1`, goal node isolated) the `transfer`
search never terminates: no amount of fuel completes the loop. -/
theorem transfer_not_terminating :
    ¬ ∃ (fuel : ℕ) (r : Option (ℚ × ℚ × ℕ × ℚ)),
        transferRun negGraph 0 2 0 fuel = some r := by
  rintro ⟨fuel, r, h⟩
  have h0 : divergeInv [⟨0, 0, 0, 0, ((0 : ℕ) : ℚ)⟩] (fun _ => none) :=
    ⟨0, Or.inl ⟨rfl, fun v hv => by simp at hv, fun v hv => by simp at hv⟩⟩
  have := negGraph_fuel_out fuel [⟨0, 0, 0, 0, ((0 : ℕ) : ℚ)⟩] (fun _ => none) h0
  rw [transferRun] at h
  rw [show ((0 : ℕ) : ℚ) = (0 : ℚ) from by push_cast; ring] at this
  rw [this] at h
  exact Option.noConfusion h

/-! ## Claim C7, amended: termination for nonnegative battery costs -/

/-- The common denominator is positive. -/
theorem denomD_pos (g : Graph) (b0 : ℚ) : 0 < denomD g b0 := by
  unfold denomD
  have h1 : 0 < b0.den := b0.pos
  have h2 : 0 < g.maxBattery.den := g.maxBattery.pos
  have h3 : 0 < ((battCosts g).map Rat.den).prod := by
    apply List.prod_pos
    intro a ha
    obtain ⟨c, _, rfl⟩ := List.mem_map.mp ha
    exact c.pos
  positivity

/-- A rational whose denominator divides `d` is an integer multiple of
`1 / d`. -/
theorem exists_int_div {x : ℚ} {d : ℕ} (hdvd : x.den ∣ d) (hd : 0 < d) :
    ∃ n : ℤ, x = n / (d : ℚ) := by
  obtain ⟨k, hk⟩ := hdvd
  have hk0 : k ≠ 0 := by
    rintro rfl
    rw [Nat.mul_zero] at hk
    omega
  refine ⟨x.num * k, ?_⟩
  have hden : ((x.den : ℚ)) ≠ 0 := by
    exact_mod_cast x.den_nz
  have hkq : ((k : ℚ)) ≠ 0 := by exact_mod_cast hk0
  rw [hk]
  push_cast
  rw [mul_div_mul_right _ _ hkq]
  exact (Rat.num_div_den x).symm

/-- Lower bound is below upper bound, and both bracket `0`, `b0` and the
capacity. -/
theorem loQ_le_hiQ (g : Graph) (b0 : ℚ) : loQ g b0 ≤ hiQ g b0 := by
  unfold loQ hiQ
  have := le_max_left (0 : ℚ) (max b0 g.maxBattery)
  have := min_le_left (0 : ℚ) (min b0 g.maxBattery)
  linarith

/-- Membership transfer from the invariant to the finite set. -/
theorem inS_mem_sFin {g : Graph} {b0 x : ℚ} (h : inS g b0 x) : x ∈ sFin g b0 := by
  obtain ⟨⟨n, rfl⟩, hlo, hhi⟩ := h
  have hD : (0 : ℚ) < (denomD g b0 : ℚ) := by
    exact_mod_cast denomD_pos g b0
  refine Finset.mem_image.mpr ⟨n, Finset.mem_Icc.mpr ⟨?_, ?_⟩, rfl⟩
  · rw [Int.ceil_le]
    calc loQ g b0 * (denomD g b0 : ℚ) ≤ ((n : ℚ) / (denomD g b0 : ℚ)) * (denomD g b0 : ℚ) := by
          exact mul_le_mul_of_nonneg_right hlo hD.le
      _ = (n : ℚ) := by field_simp
  · rw [Int.le_floor]
    calc (n : ℚ) = ((n : ℚ) / (denomD g b0 : ℚ)) * (denomD g b0 : ℚ) := by field_simp
      _ ≤ hiQ g b0 * (denomD g b0 : ℚ) := mul_le_mul_of_nonneg_right hhi hD.le

/-- The initial battery satisfies the invariant. -/
theorem inS_b0 (g : Graph) (b0 : ℚ) : inS g b0 b0 := by
  refine ⟨exists_int_div ⟨g.maxBattery.den * ((battCosts g).map Rat.den).prod, rfl⟩
    (denomD_pos g b0), ?_, ?_⟩
  · unfold loQ
    exact (min_le_right _ _).trans (min_le_left _ _)
  · unfold hiQ
    exact le_max_of_le_right (le_max_left _ _)

/-- The capacity satisfies the invariant. -/
theorem inS_maxBattery (g : Graph) (b0 : ℚ) : inS g b0 g.maxBattery := by
  refine ⟨?_, ?_, ?_⟩
  · apply exists_int_div ?_ (denomD_pos g b0)
    unfold denomD
    exact Dvd.dvd.mul_left (dvd_mul_right _ _) _
  · unfold loQ
    exact (min_le_right _ _).trans (min_le_right _ _)
  · unfold hiQ
    exact le_max_of_le_right (le_max_right _ _)

/-- Closure of the invariant under paying an affordable nonnegative battery
cost from the cost list. -/
theorem inS_sub {g : Graph} {b0 v c : ℚ} (hv : inS g b0 v) (hc : c ∈ battCosts g)
    (hc0 : 0 ≤ c) (hcv : c ≤ v) : inS g b0 (v - c) := by
  obtain ⟨⟨n, hn⟩, hlo, hhi⟩ := hv
  have hdvd : c.den ∣ denomD g b0 := by
    unfold denomD
    refine Dvd.dvd.mul_left (Dvd.dvd.mul_left ?_ _) _
    exact List.dvd_prod (List.mem_map_of_mem Rat.den hc)
  obtain ⟨m, hm⟩ := exists_int_div hdvd (denomD_pos g b0)
  refine ⟨⟨n - m, ?_⟩, ?_, ?_⟩
  · rw [hn, hm]
    push_cast
    ring
  · unfold loQ
    have : (0 : ℚ) ≤ v - c := by linarith
    exact (min_le_left _ _).trans this
  · have : v - c ≤ v := by linarith
    linarith

/-! ### popMin facts -/

/-- The minimum candidate is the accumulator or a list member. -/
theorem listMin_mem : ∀ (xs : List TState) (m : TState),
    listMin m xs = m ∨ listMin m xs ∈ xs := by
  intro xs
  induction xs with
  | nil => intro m; exact Or.inl rfl
  | cons x xs ih =>
      intro m
      rcases ih (if stateLE m x then m else x) with h | h
      · rw [listMin, h]
        split_ifs with hle
        · exact Or.inl rfl
        · exact Or.inr (List.mem_cons_self _ _)
      · exact Or.inr (List.mem_cons_of_mem _ (by simpa [listMin] using h))

/-- The popped state is a queue member. -/
theorem popMin_mem {q : List TState} {st : TState} {rest : List TState}
    (h : popMin q = some (st, rest)) : st ∈ q := by
  cases q with
  | nil => simp [popMin] at h
  | cons x xs =>
      simp only [popMin, Option.some.injEq, Prod.mk.injEq] at h
      obtain ⟨h1, _⟩ := h
      rcases listMin_mem xs x with h2 | h2
      · rw [← h1, h2]; exact List.mem_cons_self _ _
      · rw [← h1]; exact List.mem_cons_of_mem _ h2

/-- Popping shortens the queue by exactly one. -/
theorem popMin_length {q : List TState} {st : TState} {rest : List TState}
    (h : popMin q = some (st, rest)) : rest.length + 1 = q.length := by
  have hm := popMin_mem h
  cases q with
  | nil => simp [popMin] at h
  | cons x xs =>
      simp only [popMin, Option.some.injEq, Prod.mk.injEq] at h
      obtain ⟨h1, h2⟩ := h
      rw [← h2, List.length_erase_of_mem (by rw [h1]; exact hm)]
      simp

/-- The rest of the queue is a subset of the queue. -/
theorem popMin_subset {q : List TState} {st : TState} {rest : List TState}
    (h : popMin q = some (st, rest)) : ∀ x ∈ rest, x ∈ q := by
  cases q with
  | nil => simp [popMin] at h
  | cons x xs =>
      simp only [popMin, Option.some.injEq, Prod.mk.injEq] at h
      obtain ⟨_, h2⟩ := h
      intro y hy
      rw [← h2] at hy
      exact List.erase_subset _ _ hy

/-- An empty pop means an empty queue. -/
theorem popMin_eq_none {q : List TState} (h : popMin q = none) : q = [] := by
  cases q with
  | nil => rfl
  | cons x xs => simp [popMin] at h

/-! ### Push-step facts -/

/-- A successful association lookup returns a stored pair. -/
theorem assocGet_mem {α : Type} : ∀ {l : List (ℕ × α)} {k : ℕ} {v : α},
    assocGet l k = some v → (k, v) ∈ l := by
  intro l
  induction l with
  | nil => intro k v h; simp [assocGet] at h
  | cons p rest ih =>
      intro k v h
      cases p with
      | mk a b =>
          by_cases hk : k = a
          · subst hk
            simp only [assocGet, if_true, eq_self_iff_true, Option.some.injEq] at h
            subst h
            exact List.mem_cons_self _ _
          · simp only [assocGet, if_neg hk] at h
            exact List.mem_cons_of_mem _ (ih h)

/-- A key absent from the association list looks up to `none`. -/
theorem assocGet_eq_none {α : Type} : ∀ {l : List (ℕ × α)} {k : ℕ},
    k ∉ l.map Prod.fst → assocGet l k = none := by
  intro l
  induction l with
  | nil => intro k _; rfl
  | cons p rest ih =>
      intro k hk
      simp only [List.map_cons, List.mem_cons] at hk
      push_neg at hk
      cases p with
      | mk a b =>
          simp only [assocGet, if_neg hk.1]
          exact ih hk.2

/-- Every element of a member list is bounded by the sum of lengths. -/
theorem length_le_sum : ∀ (l : List ℕ) (a : ℕ), a ∈ l → a ≤ l.sum := by
  intro l
  induction l with
  | nil => intro a ha; simp at ha
  | cons x xs ih =>
      intro a ha
      rcases List.mem_cons.mp ha with ha | ha
      · subst ha
        rw [List.sum_cons]
        exact Nat.le_add_right _ _
      · rw [List.sum_cons]
        exact (ih a ha).trans (Nat.le_add_left _ _)

/-- Adjacency lists never exceed the global bound. -/
theorem adjOf_length_le (g : Graph) (n : ℕ) : (adjOf g n).length ≤ adjBound g := by
  unfold adjOf
  cases hget : assocGet g.edges n with
  | none => simp
  | some l =>
      simp only [Option.getD_some]
      have hmem := assocGet_mem hget
      exact length_le_sum _ _ (List.mem_map.mpr ⟨(n, l), hmem, rfl⟩)

/-- A node with a nonempty adjacency list is an edge key. -/
theorem adj_node_mem_keys {g : Graph} {n : ℕ} (h : adjOf g n ≠ []) :
    n ∈ (g.edges.map Prod.fst).toFinset := by
  unfold adjOf at h
  cases hget : assocGet g.edges n with
  | none => rw [hget] at h; simp at h
  | some l =>
      have := assocGet_mem hget
      exact List.mem_toFinset.mpr (List.mem_map.mpr ⟨(n, l), this, rfl⟩)

/-- The number of pushed successors is bounded by the adjacency bound. -/
theorem pushStates_length_le (g : Graph) (st : TState) :
    (pushStates g st).length ≤ adjBound g :=
  (List.length_filterMap_le _ _).trans (adjOf_length_le g st.node)

/-- Each successor state either has battery `max_battery` or pays an
affordable battery cost from the cost list. -/
theorem pushStates_inS {g : Graph} {b0 : ℚ} {st : TState}
    (hcost : ∀ c ∈ battCosts g, 0 ≤ c) (hb : inS g b0 st.batt) :
    ∀ st2 ∈ pushStates g st, inS g b0 st2.batt := by
  intro st2 hmem
  unfold pushStates at hmem
  obtain ⟨edge, hedge, hf⟩ := List.mem_filterMap.mp hmem
  by_cases hcb : edge.2.2.2 > st.batt
  · rw [if_pos hcb] at hf
    exact absurd hf (by simp)
  · rw [if_neg hcb] at hf
    have hcmem : edge.2.2.2 ∈ battCosts g := by
      unfold battCosts
      rw [List.mem_flatten]
      unfold adjOf at hedge
      cases hget : assocGet g.edges st.node with
      | none => rw [hget] at hedge; simp at hedge
      | some l =>
          rw [hget] at hedge
          simp only [Option.getD_some] at hedge
          refine ⟨l.map (fun e => e.2.2.2), List.mem_map.mpr ⟨(st.node, l), assocGet_mem hget, rfl⟩, ?_⟩
          exact List.mem_map_of_mem _ hedge
    by_cases hrech : isRecharge g edge.1 = true
    · rw [if_pos hrech] at hf
      have : st2.batt = g.maxBattery := by
        cases hf
        rfl
      rw [this]
      exact inS_maxBattery g b0
    · rw [if_neg hrech] at hf
      have : st2.batt = st.batt - edge.2.2.2 := by
        cases hf
        rfl
      rw [this]
      exact inS_sub hb hcmem (hcost _ hcmem) (not_lt.mp hcb)

/-! ### Measure facts -/

/-- Updating one key never increases any remaining-budget count, provided
the stored value only grows. -/
theorem remS_update_le {g : Graph} {b0 : ℚ} (best : BestMap) (k0 : ℕ × ℕ) (v : ℚ)
    (hold : optBelow (best k0) v = true) (k : ℕ × ℕ) :
    remS g b0 (updateBest best k0 v) k ≤ remS g b0 best k := by
  by_cases hk : k = k0
  · subst hk
    apply Finset.card_le_card
    intro s hs
    obtain ⟨hsS, hsb⟩ := Finset.mem_filter.mp hs
    refine Finset.mem_filter.mpr ⟨hsS, ?_⟩
    rw [show updateBest best k v k = some v from by simp [updateBest]] at hsb
    simp only [optBelow, decide_eq_true_eq] at hsb
    cases hb : best k with
    | none => rfl
    | some b =>
        simp only [optBelow, decide_eq_true_eq]
        rw [hb] at hold
        simp only [optBelow, decide_eq_true_eq] at hold
        linarith
  · unfold remS
    have : updateBest best k0 v k = best k := by
      simp [updateBest, hk]
    rw [this]

/-- Updating a key with a strictly improving value from the finite set
strictly decreases that key's remaining budget. -/
theorem remS_update_lt {g : Graph} {b0 : ℚ} (best : BestMap) (k0 : ℕ × ℕ) (v : ℚ)
    (hold : optBelow (best k0) v = true) (hv : v ∈ sFin g b0) :
    remS g b0 (updateBest best k0 v) k0 < remS g b0 best k0 := by
  apply Finset.card_lt_card
  constructor
  · intro s hs
    obtain ⟨hsS, hsb⟩ := Finset.mem_filter.mp hs
    refine Finset.mem_filter.mpr ⟨hsS, ?_⟩
    rw [show updateBest best k0 v k0 = some v from by simp [updateBest]] at hsb
    simp only [optBelow, decide_eq_true_eq] at hsb
    cases hb : best k0 with
    | none => rfl
    | some b =>
        simp only [optBelow, decide_eq_true_eq]
        rw [hb] at hold
        simp only [optBelow, decide_eq_true_eq] at hold
        linarith
  · intro hsub
    have hvin : v ∈ (sFin g b0).filter (fun s => optBelow (best k0) s = true) :=
      Finset.mem_filter.mpr ⟨hv, hold⟩
    have := hsub hvin
    obtain ⟨_, hvb⟩ := Finset.mem_filter.mp this
    rw [show updateBest best k0 v k0 = some v from by simp [updateBest]] at hvb
    simp only [optBelow, decide_eq_true_eq] at hvb
    exact lt_irrefl v hvb

/-- Updating a key inside the key set strictly decreases the total budget. -/
theorem remTotal_update_lt {g : Graph} {b0 : ℚ} (best : BestMap) (k0 : ℕ × ℕ) (v : ℚ)
    (hold : optBelow (best k0) v = true) (hv : v ∈ sFin g b0) (hk0 : k0 ∈ keysK g) :
    remTotal g b0 (updateBest best k0 v) < remTotal g b0 best := by
  apply Finset.sum_lt_sum
  · intro k _
    exact remS_update_le best k0 v hold k
  · exact ⟨k0, hk0, remS_update_lt best k0 v hold hv⟩

/-- Updating a key outside the key set leaves the total budget unchanged. -/
theorem remTotal_update_eq {g : Graph} {b0 : ℚ} (best : BestMap) (k0 : ℕ × ℕ) (v : ℚ)
    (hk0 : k0 ∉ keysK g) :
    remTotal g b0 (updateBest best k0 v) = remTotal g b0 best := by
  apply Finset.sum_congr rfl
  intro k hk
  unfold remS
  have : updateBest best k0 v k = best k := by
    have : k ≠ k0 := by
      rintro rfl
      exact hk0 hk
    simp [updateBest, this]
  rw [this]

/-- Updating with an improving value never increases the total budget. -/
theorem remTotal_update_le {g : Graph} {b0 : ℚ} (best : BestMap) (k0 : ℕ × ℕ) (v : ℚ)
    (hold : optBelow (best k0) v = true) :
    remTotal g b0 (updateBest best k0 v) ≤ remTotal g b0 best :=
  Finset.sum_le_sum fun k _ => remS_update_le best k0 v hold k

/-- Fuel exceeding the measure suffices for the `transfer` loop to finish,
provided every queued battery value satisfies the denominator-and-interval
invariant and all battery costs are nonnegative. -/
theorem transferFuel_sufficient (g : Graph) (b0 : ℚ) (goal : ℕ)
    (hcost : ∀ c ∈ battCosts g, 0 ≤ c) :
    ∀ (fuel : ℕ) (q : List TState) (best : BestMap),
      (∀ st ∈ q, inS g b0 st.batt) →
      measureT g b0 q best < fuel →
      (transferFuel g goal fuel q best).isSome = true := by
  intro fuel
  induction fuel with
  | zero => intro q best _ hm; omega
  | succ f ih =>
      intro q best hq hm
      cases hpop : popMin q with
      | none =>
          rw [transferFuel, hpop]
          rfl
      | some pr =>
          obtain ⟨st, rest⟩ := pr
          have hstq : st ∈ q := popMin_mem hpop
          have hlen : rest.length + 1 = q.length := popMin_length hpop
          have hrest : ∀ x ∈ rest, inS g b0 x.batt :=
            fun x hx => hq x (popMin_subset hpop x hx)
          rw [transferFuel, hpop]
          dsimp only
          by_cases hr : st.rech > g.recharges.length
          · rw [if_pos hr]
            refine ih rest best hrest ?_
            unfold measureT at hm ⊢
            omega
          · rw [if_neg hr]
            by_cases hgoal : st.node = goal
            · rw [if_pos hgoal]
              rfl
            · rw [if_neg hgoal]
              by_cases hpr : prunedCheck (best (st.node, st.rech)) st.batt = true
              · rw [if_pos hpr]
                refine ih rest best hrest ?_
                unfold measureT at hm ⊢
                omega
              · rw [if_neg hpr]
                have hold : optBelow (best (st.node, st.rech)) st.batt = true := by
                  cases hb : best (st.node, st.rech) with
                  | none => rfl
                  | some pb =>
                      rw [hb] at hpr
                      simp only [prunedCheck, decide_eq_true_eq, ge_iff_le, not_le] at hpr
                      simp only [optBelow, decide_eq_true_eq]
                      exact hpr
                have hqin : ∀ x ∈ rest ++ pushStates g st, inS g b0 x.batt := by
                  intro x hx
                  rcases List.mem_append.mp hx with hx | hx
                  · exact hrest x hx
                  · exact pushStates_inS hcost (hq st hstq) x hx
                refine ih _ _ hqin ?_
                by_cases hadj : adjOf g st.node = []
                · have hpushnil : pushStates g st = [] := by
                    unfold pushStates
                    rw [hadj]
                    rfl
                  have hle : remTotal g b0 (updateBest best (st.node, st.rech) st.batt) ≤
                      remTotal g b0 best := remTotal_update_le best _ _ hold
                  have hmul : (adjBound g + 1) *
                        remTotal g b0 (updateBest best (st.node, st.rech) st.batt) ≤
                      (adjBound g + 1) * remTotal g b0 best :=
                    Nat.mul_le_mul_left _ hle
                  unfold measureT at hm ⊢
                  rw [hpushnil, List.append_nil]
                  omega
                · have hkey : (st.node, st.rech) ∈ keysK g := by
                    unfold keysK
                    refine Finset.mem_product.mpr ⟨adj_node_mem_keys hadj, ?_⟩
                    rw [Finset.mem_range]
                    omega
                  have hlt : remTotal g b0 (updateBest best (st.node, st.rech) st.batt) <
                      remTotal g b0 best :=
                    remTotal_update_lt best _ _ hold (inS_mem_sFin (hq st hstq)) hkey
                  have hmul : (adjBound g + 1) *
                        (remTotal g b0 (updateBest best (st.node, st.rech) st.batt) + 1) ≤
                      (adjBound g + 1) * remTotal g b0 best :=
                    Nat.mul_le_mul_left _ (by omega)
                  have hpl : (pushStates g st).length ≤ adjBound g := pushStates_length_le g st
                  unfold measureT at hm ⊢
                  rw [List.length_append]
                  rw [Nat.mul_add, Nat.mul_one] at hmul
                  omega

/-- C7 amended: on every finite graph whose edge battery costs are all
nonnegative, `transfer` terminates for every start, goal and battery value:
some finite fuel completes the loop (with either a result tuple or the
`None` of an exhausted queue). -/
theorem transfer_terminates (g : Graph) (start goal : ℕ) (b : ℚ)
    (hcost : ∀ c ∈ battCosts g, 0 ≤ c) :
    ∃ (fuel : ℕ) (r : Option (ℚ × ℚ × ℕ × ℚ)), transferRun g start goal b fuel = some r := by
  refine ⟨measureT g b [⟨0, 0, 0, start, b⟩] (fun _ => none) + 1, ?_⟩
  have h := transferFuel_sufficient g b goal hcost
    (measureT g b [⟨0, 0, 0, start, b⟩] (fun _ => none) + 1)
    [⟨0, 0, 0, start, b⟩] (fun _ => none) ?_ (by omega)
  · obtain ⟨r, hr⟩ := Option.isSome_iff_exists.mp h
    exact ⟨r, hr⟩
  · intro st hst
    rcases List.mem_singleton.mp hst with rfl
    exact inS_b0 g b

/-- Witness for the amended C7 on a concrete graph: `hubGraph` has
nonnegative battery costs, so `transfer` terminates on it. -/
theorem transfer_terminates_witness :
    ∃ (fuel : ℕ) (r : Option (ℚ × ℚ × ℕ × ℚ)), transferRun hubGraph 0 1 5 fuel = some r :=
  transfer_terminates hubGraph 0 1 5 (by decide)

/-! ## Claim C2: `_try_complete_solution` -/

/-- C2, evaluation at the failing input: the stored solution has cost
`(1, 5, 0)` and the new complete tour has cost `(10, 4, 0)`.  The new cost
does not dominate the stored one (its distance is worse), so the claim says
the stored solution is retained; but the removal filter of
`_try_complete_solution` — whose condition parses as
`(... and ... and ... and distance < d) or (risk < r) or (recharges < rc)`
under Python operator precedence — drops it because the new risk `4` is
strictly below the stored risk `5`. -/
theorem tryComplete_drops_undominated :
    tryComplete [([0], (1, 5, 0))] [1] (10, 4, 0) = [([1], (10, 4, 0))] ∧
      ¬((10 : ℚ) ≤ 1 ∧ (4 : ℚ) ≤ 5 ∧ (0 : ℚ) ≤ 0 ∧
        ((10 : ℚ) < 1 ∨ (4 : ℚ) < 5 ∨ (0 : ℚ) < 0)) := by
  constructor
  · with_unfolding_all decide
  · intro ⟨h, _⟩
    norm_num at h

/-! ## Claim C6: the Pareto frontiers stay mutually non-dominated -/

/-- No entry dominates itself (all four strict comparisons fail). -/
theorem paretoDominates_refl (e : Cost3 × ℚ) : paretoDominates e e = false := by
  simp [paretoDominates]

/-- `_register_pareto` preserves mutual non-domination of a frontier. -/
theorem registerPareto_preserves {frontier : List (Cost3 × ℚ)} (cost : Cost3) (batt : ℚ)
    (h : pairwiseND frontier) : pairwiseND (registerPareto frontier cost batt) := by
  unfold registerPareto
  by_cases hdom : frontier.any (fun e => paretoDominates e (cost, batt)) = true
  · rw [if_pos hdom]
    exact h
  · rw [if_neg hdom]
    have hnotdom : ∀ e ∈ frontier, paretoDominates e (cost, batt) = false := by
      intro e he
      by_contra hne
      exact hdom (List.any_eq_true.mpr ⟨e, he, by simpa using hne⟩)
    intro e1 h1 e2 h2
    rcases List.mem_append.mp h1 with h1 | h1 <;> rcases List.mem_append.mp h2 with h2 | h2
    · exact h e1 (List.mem_of_mem_filter h1) e2 (List.mem_of_mem_filter h2)
    · rcases List.mem_singleton.mp h2 with rfl
      exact hnotdom e1 (List.mem_of_mem_filter h1)
    · rcases List.mem_singleton.mp h1 with rfl
      have := (List.mem_filter.mp h2).2
      simpa using this
    · rcases List.mem_singleton.mp h1 with rfl
      rcases List.mem_singleton.mp h2 with rfl
      exact paretoDominates_refl _

/-- `_bb` with no fuel returns its state unchanged. -/
theorem bb_zero (clients : List ℕ) (hub : ℕ) (tf : TransferFn) (lastNode : ℕ)
    (visited : Finset ℕ) (cost : Cost3) (batt : ℚ) (order : List ℕ) (st : BBState) :
    bb clients hub tf 0 lastNode visited cost batt order st = st := by
  rw [bb]

/-- The client loop with nothing pending returns its state unchanged. -/
theorem bbFold_nil (clients : List ℕ) (hub : ℕ) (tf : TransferFn) (fuel : ℕ) (lastNode : ℕ)
    (visited : Finset ℕ) (cost : Cost3) (batt : ℚ) (order : List ℕ) (st : BBState) :
    bbFold clients hub tf fuel lastNode visited cost batt order [] st = st := by
  rw [bbFold]

/-- C6: the recursive `_bb` keeps every per-key Pareto frontier mutually
non-dominated — the only mutation of the dictionary goes through
`_register_pareto`, which first rejects dominated states and then removes
the entries the new state dominates.  Since `solve` starts from the cleared
(empty) dictionary, which trivially satisfies the invariant, the invariant
holds at every recursive call throughout a `solve` run and of its final
state. -/
theorem bb_pareto_invariant (clients : List ℕ) (hub : ℕ) (tf : TransferFn) :
    ∀ (fuel : ℕ),
      (∀ (lastNode : ℕ) (visited : Finset ℕ) (cost : Cost3) (batt : ℚ) (order : List ℕ)
          (st : BBState), paretoInvariant st →
          paretoInvariant (bb clients hub tf fuel lastNode visited cost batt order st)) ∧
      (∀ (pending : List ℕ) (lastNode : ℕ) (visited : Finset ℕ) (cost : Cost3) (batt : ℚ)
          (order : List ℕ) (st : BBState), paretoInvariant st →
          paretoInvariant (bbFold clients hub tf fuel lastNode visited cost batt order pending st)) := by
  intro fuel
  induction fuel with
  | zero =>
      constructor
      · intro lastNode visited cost batt order st hst
        rw [bb_zero]
        exact hst
      · intro pending
        induction pending with
        | nil =>
            intro lastNode visited cost batt order st hst
            rw [bbFold_nil]
            exact hst
        | cons c rest ihp =>
            intro lastNode visited cost batt order st hst
            rw [bbFold]
            apply ihp
            dsimp only
            split_ifs
            · exact hst
            · cases tf lastNode c batt with
              | none => exact hst
              | some r =>
                  dsimp only
                  rw [bb_zero]
                  exact hst
      | succ f ihf =>
          have hbb : ∀ (lastNode : ℕ) (visited : Finset ℕ) (cost : Cost3) (batt : ℚ)
              (order : List ℕ) (st : BBState), paretoInvariant st →
              paretoInvariant (bb clients hub tf (f + 1) lastNode visited cost batt order st) := by
            intro lastNode visited cost batt order st hst
            rw [bb]
            split_ifs with hdom hterm
            · exact hst
            · have hst1 : paretoInvariant
                  ⟨fun k => if k = (lastNode, visited) then
                      registerPareto (st.pareto (lastNode, visited)) cost batt
                    else st.pareto k, st.best⟩ := by
                intro k
                by_cases hk : k = (lastNode, visited)
                · simp only [hk, if_pos rfl]
                  exact registerPareto_preserves cost batt (hst _)
                · simp only [if_neg hk]
                  exact hst k
              cases htf : tf lastNode hub batt with
              | none => exact hst1
              | some r => exact hst1
            · have hst1 : paretoInvariant
                  ⟨fun k => if k = (lastNode, visited) then
                      registerPareto (st.pareto (lastNode, visited)) cost batt
                    else st.pareto k, st.best⟩ := by
                intro k
                by_cases hk : k = (lastNode, visited)
                · simp only [hk, if_pos rfl]
                  exact registerPareto_preserves cost batt (hst _)
                · simp only [if_neg hk]
                  exact hst k
              exact ihf.2 clients lastNode visited cost batt order _ hst1
          refine ⟨hbb, ?_⟩
          intro pending
          induction pending with
          | nil =>
              intro lastNode visited cost batt order st hst
              rw [bbFold_nil]
              exact hst
          | cons c rest ihp =>
              intro lastNode visited cost batt order st hst
              rw [bbFold]
              apply ihp
              dsimp only
              split_ifs
              · exact hst
              · cases tf lastNode c batt with
                | none => exact hst
                | some r =>
                    dsimp only
                    exact hbb _ _ _ _ _ _ hst

/-- Witness for C6: the invariant, supplied for the empty initial state (the
state `solve` creates), is preserved through a full `_bb` run on a small
instance. -/
theorem bb_pareto_invariant_witness :
    paretoInvariant (bb [0] 1 (fun _ _ b => some (1, 0, 0, b)) 2 1 ∅ (0, 0, 0) 10 []
      ⟨fun _ => [], []⟩) :=
  (bb_pareto_invariant [0] 1 (fun _ _ b => some (1, 0, 0, b)) 2).1 1 ∅ (0, 0, 0) 10 []
    ⟨fun _ => [], []⟩ (fun k e1 h1 => by simp at h1)

/-! ## Claim C8: `solve` does not depend on dictionary iteration order

Heap entries are Python tuples compared lexicographically, so two distinct
states always compare strictly; popping the heap minimum therefore yields a
value determined by the queue contents alone, and running `transfer` on a
graph whose adjacency lists are permuted (the dictionaries iterated in any
other order) gives identical results. -/

/-- `stateLE` is the lexicographic order on the priority tuple. -/
theorem stateLE_iff (s t : TState) : stateLE s t = true ↔ stKey s ≤ stKey t := by
  unfold stateLE stKey
  rw [Prod.Lex.le_iff, Prod.Lex.le_iff, Prod.Lex.le_iff, Prod.Lex.le_iff]
  by_cases h1 : s.rech = t.rech <;> by_cases h2 : s.dist = t.dist <;>
    by_cases h3 : s.risk = t.risk <;> by_cases h4 : s.node = t.node <;>
    simp [h1, h2, h3, h4, lt_irrefl]

/-- Reflexivity of the queue order. -/
theorem stateLE_refl (s : TState) : stateLE s s = true :=
  (stateLE_iff s s).mpr le_rfl

/-- Totality of the queue order. -/
theorem stateLE_total (s t : TState) : stateLE s t = true ∨ stateLE t s = true := by
  rcases le_total (stKey s) (stKey t) with h | h
  · exact Or.inl ((stateLE_iff s t).mpr h)
  · exact Or.inr ((stateLE_iff t s).mpr h)

/-- Transitivity of the queue order. -/
theorem stateLE_trans {s t u : TState} (h1 : stateLE s t = true) (h2 : stateLE t u = true) :
    stateLE s u = true :=
  (stateLE_iff s u).mpr (le_trans ((stateLE_iff s t).mp h1) ((stateLE_iff t u).mp h2))

/-- Antisymmetry: comparable-both-ways states are equal (Python tuples that
compare equal both ways are the same tuple). -/
theorem stateLE_antisymm {s t : TState} (h1 : stateLE s t = true) (h2 : stateLE t s = true) :
    s = t := by
  have h := le_antisymm ((stateLE_iff s t).mp h1) ((stateLE_iff t s).mp h2)
  unfold stKey at h
  simp only [toLex_inj, Prod.mk.injEq] at h
  obtain ⟨e1, e2, e3, e4, e5⟩ := h
  cases s
  cases t
  simp_all

/-- The selected minimum is a member of, and below every element of, the
head-plus-tail list. -/
theorem listMin_spec : ∀ (xs : List TState) (m : TState),
    (listMin m xs = m ∨ listMin m xs ∈ xs) ∧ stateLE (listMin m xs) m = true ∧
      ∀ z ∈ xs, stateLE (listMin m xs) z = true := by
  intro xs
  induction xs with
  | nil =>
      intro m
      exact ⟨Or.inl rfl, stateLE_refl m, fun z hz => absurd hz (List.not_mem_nil z)⟩
  | cons x xs ih =>
      intro m
      obtain ⟨hm1, hm2, hm3⟩ := ih (if stateLE m x then m else x)
      have hle_m : stateLE (if stateLE m x then m else x) m = true := by
        split_ifs with hmx
        · exact stateLE_refl m
        · rcases stateLE_total m x with h | h
          · exact absurd h hmx
          · exact h
      have hle_x : stateLE (if stateLE m x then m else x) x = true := by
        split_ifs with hmx
        · exact hmx
        · exact stateLE_refl x
      have hrw : listMin m (x :: xs) = listMin (if stateLE m x then m else x) xs := by
        rw [listMin]
      refine ⟨?_, ?_, ?_⟩
      · rw [hrw]
        rcases hm1 with h | h
        · rw [h]
          split_ifs with hmx
          · exact Or.inl rfl
          · exact Or.inr (List.mem_cons_self _ _)
        · exact Or.inr (List.mem_cons_of_mem _ h)
      · rw [hrw]
        exact stateLE_trans hm2 hle_m
      · intro z hz
        rw [hrw]
        rcases List.mem_cons.mp hz with hz | hz
        · rw [hz]
          exact stateLE_trans hm2 hle_x
        · exact hm3 z hz

/-- Popping permuted queues yields the same minimum value and permuted
remainders. -/
theorem popMin_perm {q1 q2 : List TState} (h : q1.Perm q2) :
    (popMin q1 = none ∧ popMin q2 = none) ∨
      ∃ st r1 r2, popMin q1 = some (st, r1) ∧ popMin q2 = some (st, r2) ∧ r1.Perm r2 := by
  cases q1 with
  | nil =>
      have : q2 = [] := List.Perm.eq_nil h.symm
      subst this
      exact Or.inl ⟨rfl, rfl⟩
  | cons x xs =>
      cases q2 with
      | nil => exact absurd (List.Perm.eq_nil h) (by simp)
      | cons y ys =>
          obtain ⟨ha1, ha2, ha3⟩ := listMin_spec xs x
          obtain ⟨hb1, hb2, hb3⟩ := listMin_spec ys y
          have hmem1 : listMin x xs ∈ x :: xs := by
            rcases ha1 with h1 | h1
            · rw [h1]; exact List.mem_cons_self _ _
            · exact List.mem_cons_of_mem _ h1
          have hmem2 : listMin y ys ∈ y :: ys := by
            rcases hb1 with h1 | h1
            · rw [h1]; exact List.mem_cons_self _ _
            · exact List.mem_cons_of_mem _ h1
          have hall1 : ∀ z ∈ x :: xs, stateLE (listMin x xs) z = true := by
            intro z hz
            rcases List.mem_cons.mp hz with hz | hz
            · rw [hz]; exact ha2
            · exact ha3 z hz
          have hall2 : ∀ z ∈ y :: ys, stateLE (listMin y ys) z = true := by
            intro z hz
            rcases List.mem_cons.mp hz with hz | hz
            · rw [hz]; exact hb2
            · exact hb3 z hz
          have heq : listMin x xs = listMin y ys :=
            stateLE_antisymm (hall1 _ (h.mem_iff.mpr hmem2)) (hall2 _ (h.mem_iff.mp hmem1))
          refine Or.inr ⟨listMin x xs, (x :: xs).erase (listMin x xs),
            (y :: ys).erase (listMin y ys), rfl, by rw [popMin, heq], ?_⟩
          rw [heq]
          exact h.erase _

/-- Pushed successors from permuted adjacency lists are permuted. -/
theorem pushStates_perm {g1 g2 : Graph} (hg : GraphPerm g1 g2) (st : TState) :
    (pushStates g1 st).Perm (pushStates g2 st) := by
  obtain ⟨hmb, hcl, hre, hhub, hadj⟩ := hg
  unfold pushStates
  have hfun : ∀ edge : ℕ × ℚ × ℚ × ℚ,
      (if edge.2.2.2 > st.batt then none
       else if isRecharge g2 edge.1 then
         some (⟨(if edge.1 ≠ g2.hub then st.rech + 1 else st.rech),
               st.dist + edge.2.1, st.risk + edge.2.2.1, edge.1, g2.maxBattery⟩ : TState)
       else some ⟨st.rech, st.dist + edge.2.1, st.risk + edge.2.2.1, edge.1,
         st.batt - edge.2.2.2⟩) =
      (if edge.2.2.2 > st.batt then none
       else if isRecharge g1 edge.1 then
         some (⟨(if edge.1 ≠ g1.hub then st.rech + 1 else st.rech),
               st.dist + edge.2.1, st.risk + edge.2.2.1, edge.1, g1.maxBattery⟩ : TState)
       else some ⟨st.rech, st.dist + edge.2.1, st.risk + edge.2.2.1, edge.1,
         st.batt - edge.2.2.2⟩) := by
    intro edge
    rw [show isRecharge g2 = isRecharge g1 from by unfold isRecharge; rw [hre], hhub, hmb]
  refine List.Perm.filterMap _ (hadj st.node) |>.trans ?_
  rw [List.filterMap_congr]
  intro edge _
  exact (hfun edge).symm

/-- The `transfer` loop returns identical results on permuted queues over
adjacency-permuted graphs. -/
theorem transferFuel_perm {g1 g2 : Graph} (hg : GraphPerm g1 g2) (goal : ℕ) :
    ∀ (fuel : ℕ) (q1 q2 : List TState) (best : BestMap), q1.Perm q2 →
      transferFuel g1 goal fuel q1 best = transferFuel g2 goal fuel q2 best := by
  intro fuel
  induction fuel with
  | zero => intro q1 q2 best _; rfl
  | succ f ih =>
      intro q1 q2 best hq
      rcases popMin_perm hq with ⟨h1, h2⟩ | ⟨st, r1, r2, h1, h2, hr⟩
      · rw [transferFuel, transferFuel, h1, h2]
      · rw [transferFuel, transferFuel, h1, h2]
        dsimp only
        have hlen : g1.recharges.length = g2.recharges.length := by rw [hg.2.2.1]
        by_cases hrech : st.rech > g1.recharges.length
        · have hrech2 : st.rech > g2.recharges.length := by rw [← hlen]; exact hrech
          rw [if_pos hrech, if_pos hrech2]
          exact ih r1 r2 best hr
        · have hrech2 : ¬st.rech > g2.recharges.length := by rw [← hlen]; exact hrech
          rw [if_neg hrech, if_neg hrech2]
          by_cases hgoal : st.node = goal
          · rw [if_pos hgoal, if_pos hgoal]
          · rw [if_neg hgoal, if_neg hgoal]
            by_cases hpr : prunedCheck (best (st.node, st.rech)) st.batt = true
            · rw [if_pos hpr, if_pos hpr]
              exact ih r1 r2 best hr
            · rw [if_neg hpr, if_neg hpr]
              exact ih _ _ _ (hr.append (pushStates_perm hg st))

/-- C8: `solve` is deterministic — on the same graph two runs coincide
trivially, and more strongly the returned solution list does not change
when every adjacency dictionary is iterated in a different order
(adjacency lists permuted per node). -/
theorem solveOnGraph_perm_invariant (g1 g2 : Graph) (hub : ℕ) (transferAmt : ℕ) (b : ℚ)
    (hg : GraphPerm g1 g2) :
    solveOnGraph g1 hub transferAmt b = solveOnGraph g2 hub transferAmt b := by
  unfold solveOnGraph solveBB
  have hcl : g1.clients = g2.clients := hg.2.1
  have htf : (fun s t bt => (transferRun g1 s t bt transferAmt).join) =
      (fun s t bt => (transferRun g2 s t bt transferAmt).join) := by
    funext s t bt
    rw [show transferRun g1 s t bt transferAmt = transferRun g2 s t bt transferAmt from
      transferFuel_perm hg t transferAmt _ _ _ (List.Perm.refl _)]
  rw [hcl, htf]

/-- Witness for C8: the two concrete graphs differing only in the iteration
order of the hub adjacency list produce the same solution list. -/
theorem solveOnGraph_perm_invariant_witness :
    GraphPerm permGraphA permGraphB ∧
      solveOnGraph permGraphA 0 5 100 = solveOnGraph permGraphB 0 5 100 := by
  have hg : GraphPerm permGraphA permGraphB := by
    refine ⟨rfl, rfl, rfl, rfl, ?_⟩
    intro n
    match n with
    | 0 =>
        rw [show adjOf permGraphA 0 = [(1, 5, 0, 5), (2, 10, 0, 10)] from rfl,
          show adjOf permGraphB 0 = [(2, 10, 0, 10), (1, 5, 0, 5)] from rfl]
        exact List.Perm.swap _ _ _
    | 1 => rw [show adjOf permGraphA 1 = adjOf permGraphB 1 from rfl]
    | 2 => rw [show adjOf permGraphA 2 = adjOf permGraphB 2 from rfl]
    | n + 3 =>
        rw [show adjOf permGraphA (n + 3) = [] from rfl,
          show adjOf permGraphB (n + 3) = [] from rfl]
  exact ⟨hg, solveOnGraph_perm_invariant permGraphA permGraphB 0 5 100 hg⟩

/-! ## Claim C9: construction errors of `build_from_json` -/

/-- Scanning with a hub already found: succeeds (keeping that hub) iff no
further hub appears, errors otherwise. -/
theorem scanNodes_some_char : ∀ (l : List NodeRec) (cl re : List ℕ) (h0 : ℕ),
    (l.countP isHubRec = 0 →
      ∃ cl2 re2, scanNodes l (cl, re, some h0) = Except.ok (cl2, re2, some h0)) ∧
    (0 < l.countP isHubRec →
      ∃ msg, scanNodes l (cl, re, some h0) = Except.error msg) := by
  intro l
  induction l with
  | nil =>
      intro cl re h0
      exact ⟨fun _ => ⟨cl, re, rfl⟩, fun h => by simp [List.countP_nil] at h⟩
  | cons n rest ih =>
      intro cl re h0
      cases hn : n.ntype with
      | hub =>
          refine ⟨fun hc => ?_, fun _ => ⟨"JSON incorrecto: Contiene mas de un hub", ?_⟩⟩
          · rw [List.countP_cons] at hc
            simp [isHubRec, hn] at hc
          · rw [scanNodes, hn]
      | client =>
          have hcnt : (n :: rest).countP isHubRec = rest.countP isHubRec := by
            rw [List.countP_cons]
            simp [isHubRec, hn]
          constructor
          · intro hc
            rw [hcnt] at hc
            obtain ⟨cl2, re2, heq⟩ := (ih (cl ++ [n.nid]) re h0).1 hc
            refine ⟨cl2, re2, ?_⟩
            rw [scanNodes, hn]
            exact heq
          · intro hc
            rw [hcnt] at hc
            obtain ⟨msg, heq⟩ := (ih (cl ++ [n.nid]) re h0).2 hc
            refine ⟨msg, ?_⟩
            rw [scanNodes, hn]
            exact heq
      | recharge =>
          have hcnt : (n :: rest).countP isHubRec = rest.countP isHubRec := by
            rw [List.countP_cons]
            simp [isHubRec, hn]
          constructor
          · intro hc
            rw [hcnt] at hc
            obtain ⟨cl2, re2, heq⟩ := (ih cl (re ++ [n.nid]) h0).1 hc
            refine ⟨cl2, re2, ?_⟩
            rw [scanNodes, hn]
            exact heq
          · intro hc
            rw [hcnt] at hc
            obtain ⟨msg, heq⟩ := (ih cl (re ++ [n.nid]) h0).2 hc
            refine ⟨msg, ?_⟩
            rw [scanNodes, hn]
            exact heq
      | other =>
          have hcnt : (n :: rest).countP isHubRec = rest.countP isHubRec := by
            rw [List.countP_cons]
            simp [isHubRec, hn]
          constructor
          · intro hc
            rw [hcnt] at hc
            obtain ⟨cl2, re2, heq⟩ := (ih cl re h0).1 hc
            refine ⟨cl2, re2, ?_⟩
            rw [scanNodes, hn]
            exact heq
          · intro hc
            rw [hcnt] at hc
            obtain ⟨msg, heq⟩ := (ih cl re h0).2 hc
            refine ⟨msg, ?_⟩
            rw [scanNodes, hn]
            exact heq

/-- Scanning with no hub yet: the outcome is decided by how many hub
records remain — none: success without hub; exactly one: success with that
hub; two or more: a configuration error. -/
theorem scanNodes_none_char : ∀ (l : List NodeRec) (cl re : List ℕ),
    (l.countP isHubRec = 0 →
      ∃ cl2 re2, scanNodes l (cl, re, none) = Except.ok (cl2, re2, none)) ∧
    (l.countP isHubRec = 1 →
      ∃ cl2 re2 h, scanNodes l (cl, re, none) = Except.ok (cl2, re2, some h)) ∧
    (2 ≤ l.countP isHubRec →
      ∃ msg, scanNodes l (cl, re, none) = Except.error msg) := by
  intro l
  induction l with
  | nil =>
      intro cl re
      refine ⟨fun _ => ⟨cl, re, rfl⟩, fun h => ?_, fun h => ?_⟩ <;>
        simp [List.countP_nil] at h
  | cons n rest ih =>
      intro cl re
      cases hn : n.ntype with
      | hub =>
          have hcnt : (n :: rest).countP isHubRec = rest.countP isHubRec + 1 := by
            rw [List.countP_cons]
            simp [isHubRec, hn]
          refine ⟨fun hc => ?_, fun hc => ?_, fun hc => ?_⟩
          · rw [hcnt] at hc
            omega
          · rw [hcnt] at hc
            obtain ⟨cl2, re2, heq⟩ := (scanNodes_some_char rest cl re n.nid).1 (by omega)
            refine ⟨cl2, re2, n.nid, ?_⟩
            rw [scanNodes, hn]
            exact heq
          · rw [hcnt] at hc
            obtain ⟨msg, heq⟩ := (scanNodes_some_char rest cl re n.nid).2 (by omega)
            refine ⟨msg, ?_⟩
            rw [scanNodes, hn]
            exact heq
      | client =>
          have hcnt : (n :: rest).countP isHubRec = rest.countP isHubRec := by
            rw [List.countP_cons]
            simp [isHubRec, hn]
          refine ⟨fun hc => ?_, fun hc => ?_, fun hc => ?_⟩ <;> rw [hcnt] at hc
          · obtain ⟨cl2, re2, heq⟩ := (ih (cl ++ [n.nid]) re).1 hc
            exact ⟨cl2, re2, by rw [scanNodes, hn]; exact heq⟩
          · obtain ⟨cl2, re2, h, heq⟩ := (ih (cl ++ [n.nid]) re).2.1 hc
            exact ⟨cl2, re2, h, by rw [scanNodes, hn]; exact heq⟩
          · obtain ⟨msg, heq⟩ := (ih (cl ++ [n.nid]) re).2.2 hc
            exact ⟨msg, by rw [scanNodes, hn]; exact heq⟩
      | recharge =>
          have hcnt : (n :: rest).countP isHubRec = rest.countP isHubRec := by
            rw [List.countP_cons]
            simp [isHubRec, hn]
          refine ⟨fun hc => ?_, fun hc => ?_, fun hc => ?_⟩ <;> rw [hcnt] at hc
          · obtain ⟨cl2, re2, heq⟩ := (ih cl (re ++ [n.nid])).1 hc
            exact ⟨cl2, re2, by rw [scanNodes, hn]; exact heq⟩
          · obtain ⟨cl2, re2, h, heq⟩ := (ih cl (re ++ [n.nid])).2.1 hc
            exact ⟨cl2, re2, h, by rw [scanNodes, hn]; exact heq⟩
          · obtain ⟨msg, heq⟩ := (ih cl (re ++ [n.nid])).2.2 hc
            exact ⟨msg, by rw [scanNodes, hn]; exact heq⟩
      | other =>
          have hcnt : (n :: rest).countP isHubRec = rest.countP isHubRec := by
            rw [List.countP_cons]
            simp [isHubRec, hn]
          refine ⟨fun hc => ?_, fun hc => ?_, fun hc => ?_⟩ <;> rw [hcnt] at hc
          · obtain ⟨cl2, re2, heq⟩ := (ih cl re).1 hc
            exact ⟨cl2, re2, by rw [scanNodes, hn]; exact heq⟩
          · obtain ⟨cl2, re2, h, heq⟩ := (ih cl re).2.1 hc
            exact ⟨cl2, re2, h, by rw [scanNodes, hn]; exact heq⟩
          · obtain ⟨msg, heq⟩ := (ih cl re).2.2 hc
            exact ⟨msg, by rw [scanNodes, hn]; exact heq⟩

/-- Polygon-list construction succeeds iff every vertex list has at least 3
entries, and errors otherwise. -/
theorem mkPolyList_char : ∀ (ls : List (List (ℚ × ℚ))),
    ((∀ ps ∈ ls, 3 ≤ ps.length) → ∃ polys, mkPolyList ls = Except.ok polys) ∧
    ((∃ ps ∈ ls, ps.length < 3) → ∃ msg, mkPolyList ls = Except.error msg) := by
  intro ls
  induction ls with
  | nil =>
      exact ⟨fun _ => ⟨[], rfl⟩, fun ⟨ps, hps, _⟩ => absurd hps (List.not_mem_nil ps)⟩
  | cons ps rest ih =>
      constructor
      · intro hall
        have hlen : ¬ps.length < 3 := by
          have := hall ps (List.mem_cons_self _ _)
          omega
        obtain ⟨polys, hp⟩ := ih.1 fun q hq => hall q (List.mem_cons_of_mem _ hq)
        refine ⟨(ps.map fun q => ⟨0, q.1, q.2⟩) :: polys, ?_⟩
        rw [mkPolyList]
        simp only [mkPolygon, if_neg hlen]
        rw [show (Except.ok (ps.map fun q => (⟨0, q.1, q.2⟩ : Point)) >>= fun p =>
            mkPolyList rest >>= fun l => Except.ok (p :: l) :
            Except String (List Poly)) = mkPolyList rest >>= fun l =>
            Except.ok ((ps.map fun q => (⟨0, q.1, q.2⟩ : Point)) :: l) from rfl]
        rw [hp]
        rfl
      · rintro ⟨q, hq, hqlen⟩
        rcases List.mem_cons.mp hq with rfl | hq
        · refine ⟨"Un poligono debe tener 3 o mas vertices", ?_⟩
          rw [mkPolyList]
          simp only [mkPolygon, if_pos hqlen]
          rfl
        · by_cases hps : ps.length < 3
          · refine ⟨"Un poligono debe tener 3 o mas vertices", ?_⟩
            rw [mkPolyList]
            simp only [mkPolygon, if_pos hps]
            rfl
          · obtain ⟨msg, hm⟩ := ih.2 ⟨q, hq, hqlen⟩
            refine ⟨msg, ?_⟩
            rw [mkPolyList]
            simp only [mkPolygon, if_neg hps]
            rw [show (Except.ok (ps.map fun q => (⟨0, q.1, q.2⟩ : Point)) >>= fun p =>
                mkPolyList rest >>= fun l => Except.ok (p :: l) :
                Except String (List Poly)) = mkPolyList rest >>= fun l =>
                Except.ok ((ps.map fun q => (⟨0, q.1, q.2⟩ : Point)) :: l) from rfl]
            rw [hm]
            rfl

/-- C9: `build_from_json` (over well-typed deserialised map data) returns a
constructed graph iff the data has exactly one hub node and every
forbidden-zone and risk-zone polygon has at least 3 vertices; with zero or
several hubs, or any degenerate polygon, it raises an error instead.  The
quantification over `sqrtFn` abstracts the floating-point `math.sqrt`. -/
theorem buildFromJson_ok_iff (sqrtFn : ℚ → ℚ) (m : MapData) :
    (∃ g, buildFromJson sqrtFn m = Except.ok g) ↔
      (m.nodes.countP isHubRec = 1 ∧
        (∀ z ∈ m.forbiddenZones, 3 ≤ z.polygon.length) ∧
        (∀ z ∈ m.riskZones, 3 ≤ z.polygon.length)) := by
  constructor
  · rintro ⟨g, hg⟩
    unfold buildFromJson at hg
    rcases hcnt : m.nodes.countP isHubRec with _ | c
    · -- no hub: the final check fails whatever the polygons do
      obtain ⟨cl2, re2, hscan⟩ := (scanNodes_none_char m.nodes [] []).1 hcnt
      rw [hscan] at hg
      by_cases hforb : ∀ ps ∈ m.forbiddenZones.map (fun z => z.polygon), 3 ≤ ps.length
      · obtain ⟨polys, hpol⟩ := (mkPolyList_char _).1 hforb
        rw [show ((Except.ok (cl2, re2, (none : Option ℕ)) >>= fun x =>
            mkPolyList (m.forbiddenZones.map (fun z => z.polygon)) >>= fun forb => _) :
            Except String Graph) = _ from rfl] at hg
        simp only [Bind.bind, Except.bind, hpol] at hg
        by_cases hrisk : ∀ ps ∈ m.riskZones.map (fun z => z.polygon), 3 ≤ ps.length
        · obtain ⟨polys2, hpol2⟩ := (mkPolyList_char _).1 hrisk
          rw [hpol2] at hg
          exact Except.noConfusion hg
        · push_neg at hrisk
          obtain ⟨ps, hps, hlen⟩ := hrisk
          obtain ⟨msg, hmsg⟩ := (mkPolyList_char _).2 ⟨ps, hps, hlen⟩
          rw [hmsg] at hg
          exact Except.noConfusion hg
      · push_neg at hforb
        obtain ⟨ps, hps, hlen⟩ := hforb
        obtain ⟨msg, hmsg⟩ := (mkPolyList_char _).2 ⟨ps, hps, hlen⟩
        simp only [Bind.bind, Except.bind, hmsg] at hg
        exact Except.noConfusion hg
    · rcases c with _ | c
      · -- exactly one hub
        refine ⟨rfl, ?_, ?_⟩
        · by_contra hforb
          push_neg at hforb
          obtain ⟨z, hz, hlen⟩ := hforb
          obtain ⟨cl2, re2, h, hscan⟩ := (scanNodes_none_char m.nodes [] []).2.1 hcnt
          obtain ⟨msg, hmsg⟩ := (mkPolyList_char _).2
            ⟨z.polygon, List.mem_map.mpr ⟨z, hz, rfl⟩, by omega⟩
          rw [hscan] at hg
          simp only [Bind.bind, Except.bind, hmsg] at hg
          exact Except.noConfusion hg
        · by_contra hrisk
          push_neg at hrisk
          obtain ⟨z, hz, hlen⟩ := hrisk
          obtain ⟨cl2, re2, h, hscan⟩ := (scanNodes_none_char m.nodes [] []).2.1 hcnt
          rw [hscan] at hg
          by_cases hforb : ∀ ps ∈ m.forbiddenZones.map (fun z => z.polygon), 3 ≤ ps.length
          · obtain ⟨polys, hpol⟩ := (mkPolyList_char _).1 hforb
            obtain ⟨msg, hmsg⟩ := (mkPolyList_char _).2
              ⟨z.polygon, List.mem_map.mpr ⟨z, hz, rfl⟩, by omega⟩
            simp only [Bind.bind, Except.bind, hpol, hmsg] at hg
            exact Except.noConfusion hg
          · push_neg at hforb
            obtain ⟨ps, hps, hlen2⟩ := hforb
            obtain ⟨msg, hmsg⟩ := (mkPolyList_char _).2 ⟨ps, hps, hlen2⟩
            simp only [Bind.bind, Except.bind, hmsg] at hg
            exact Except.noConfusion hg
      · -- two or more hubs: the scan itself errors
        obtain ⟨msg, hscan⟩ := (scanNodes_none_char m.nodes [] []).2.2 (by omega)
        rw [hscan] at hg
        exact Except.noConfusion hg
  · rintro ⟨hcnt, hforb, hrisk⟩
    obtain ⟨cl2, re2, h, hscan⟩ := (scanNodes_none_char m.nodes [] []).2.1 hcnt
    obtain ⟨polys, hpol⟩ := (mkPolyList_char (m.forbiddenZones.map (fun z => z.polygon))).1
      fun ps hps => by
        obtain ⟨z, hz, rfl⟩ := List.mem_map.mp hps
        exact hforb z hz
    obtain ⟨polys2, hpol2⟩ := (mkPolyList_char (m.riskZones.map (fun z => z.polygon))).1
      fun ps hps => by
        obtain ⟨z, hz, rfl⟩ := List.mem_map.mp hps
        exact hrisk z hz
    refine ⟨⟨m.maxBattery, m.nodes.map fun n => (n.nid, ⟨0, n.x, n.y⟩), cl2, re2, h,
      polys, polys2.zip (m.riskZones.map (·.riskFactor)),
      buildEdges sqrtFn polys (polys2.zip (m.riskZones.map (·.riskFactor)))
        (m.nodes.map fun n => (n.nid, ⟨0, n.x, n.y⟩))⟩, ?_⟩
    unfold buildFromJson
    rw [hscan]
    simp only [Bind.bind, Except.bind, hpol, hpol2]

end DroneRouting
